import Mathlib

/-!
# Verification of the ISO 20022 pacs.008 dataset-preparation pipeline

This file embeds the data-preparation logic that the repository's notebooks
perform before handing data to the managed training step (field selection,
renaming, type assignment, target label encoding, train/test splitting and
CSV round-tripping), together with the validation-service configuration
data from `application.yml`, and proves the specified properties about it.

The notebooks delegate the elementary data-frame operations to library
calls (`DataFrame.rename`, `astype`, `LabelEncoder.fit_transform`,
`train_test_split`, `to_csv`, `read_csv`).  The bodies of those library
operations are not part of the repository's sources, so the corresponding
definitions below are modelled from the specification of the operation the
notebook invokes, faithful to the documented behaviour of the call sites
(missing CSV fields read back as missing values; `astype(str)` renders a
missing value as the string `"nan"`; the label encoder maps the
lexicographically sorted distinct target strings to `0, 1, ...`).
-/

namespace DataPrep

/-- A raw cell of a data frame as produced by reading a CSV file: either a
missing value (an empty CSV field) or a string value. -/
inductive Cell where
  | missing : Cell
  | str : String → Cell
deriving DecidableEq

/-- The five semantic kinds a selected field can be declared with. -/
inductive Kind where
  | categorical : Kind
  | integer : Kind
  | numeric : Kind
  | text : Kind
  | target : Kind
deriving DecidableEq

/-- A numeric (float) value, modelled exactly: either the missing-value
float `nan`, or a finite decimal `m / 10 ^ e`. -/
inductive FloatVal where
  | nan : FloatVal
  | fin : Int → Nat → FloatVal
deriving DecidableEq

/-- A typed cell after `assign_types` has resolved its declared kind. -/
inductive TValue where
  | cat : String → TValue
  | intg : Int → TValue
  | num : FloatVal → TValue
  | txt : String → TValue
  | tgt : String → TValue
deriving DecidableEq

/-- The error taxonomy of the dataset preparer. -/
inductive PrepError where
  | SchemaMismatch : PrepError
  | TypeCoercionError : PrepError
  | EmptyDatasetError : PrepError
  | IOFailure : PrepError
deriving DecidableEq

/-- A raw data frame: a header of field names and rows of raw cells. -/
structure RawFrame where
  header : List String
  rows : List (List Cell)
deriving DecidableEq

/-- A typed data frame: a header of field names and rows of typed values. -/
structure TypedFrame where
  header : List String
  rows : List (List TValue)
deriving DecidableEq

/-! ## Decimal digit printing and parsing

`astype('int64')` and `astype('float64')` parse decimal strings, and
writing a typed frame back to CSV prints them; the notebooks' round-trip
behaviour rests on these conversions, embedded here over `Nat.digits`. -/

/-- The decimal digit character of a digit value `0..9`. -/
def digitChar (d : Nat) : Char :=
  match d with
  | 0 => '0' | 1 => '1' | 2 => '2' | 3 => '3' | 4 => '4'
  | 5 => '5' | 6 => '6' | 7 => '7' | 8 => '8' | _ => '9'

/-- The digit value of a decimal digit character, `none` otherwise. -/
def charDigit? (c : Char) : Option Nat :=
  if 48 ≤ c.toNat ∧ c.toNat ≤ 57 then some (c.toNat - 48) else none

/-- The digit value of a decimal digit character, defaulting to `0`. -/
def charDigitD (c : Char) : Nat := (charDigit? c).getD 0

/-- Is this character a decimal digit? -/
def isDig (c : Char) : Bool := (charDigit? c).isSome

/-- The numeric value of a big-endian list of digit characters. -/
def digitsVal (cs : List Char) : Nat :=
  Nat.ofDigits 10 ((cs.map charDigitD).reverse)

/-- The big-endian decimal digit characters of a natural number. -/
def natToChars (n : Nat) : List Char :=
  if n = 0 then ['0'] else ((Nat.digits 10 n).map digitChar).reverse

theorem charDigitD_digitChar {d : Nat} (h : d < 10) : charDigitD (digitChar d) = d := by
  interval_cases d <;> rfl

theorem isDig_digitChar {d : Nat} (h : d < 10) : isDig (digitChar d) = true := by
  interval_cases d <;> rfl

theorem map_charDigitD_map_digitChar {ds : List Nat} (h : ∀ d ∈ ds, d < 10) :
    (ds.map digitChar).map charDigitD = ds := by
  induction ds with
  | nil => rfl
  | cons d ds ih =>
      simp only [List.map_cons, List.cons.injEq]
      exact ⟨charDigitD_digitChar (h d (List.mem_cons_self d ds)),
        ih fun x hx => h x (List.mem_cons_of_mem d hx)⟩

theorem digitsVal_natToChars (n : Nat) : digitsVal (natToChars n) = n := by
  by_cases h : n = 0
  · subst h; rfl
  · unfold natToChars digitsVal
    rw [if_neg h, List.map_reverse, List.reverse_reverse,
      map_charDigitD_map_digitChar (fun d hd => Nat.digits_lt_base (by norm_num) hd),
      Nat.ofDigits_digits]

theorem natToChars_ne_nil (n : Nat) : natToChars n ≠ [] := by
  unfold natToChars
  by_cases h : n = 0
  · simp [h]
  · rw [if_neg h]
    intro hc
    have hne : Nat.digits 10 n ≠ [] := Nat.digits_ne_nil_iff_ne_zero.mpr h
    simp only [List.reverse_eq_nil_iff, List.map_eq_nil_iff] at hc
    exact hne hc

theorem isDig_natToChars (n : Nat) : ∀ c ∈ natToChars n, isDig c = true := by
  unfold natToChars
  by_cases h : n = 0
  · simp [h]; rfl
  · rw [if_neg h]
    intro c hc
    rw [List.mem_reverse, List.mem_map] at hc
    obtain ⟨d, hd, rfl⟩ := hc
    exact isDig_digitChar (Nat.digits_lt_base (by norm_num) hd)

/-- Decimal rendering of a signed integer, as `str()` of a Python `int64`. -/
def intToChars (n : Int) : List Char :=
  (if n < 0 then ['-'] else []) ++ natToChars n.natAbs

/-- String form of a signed integer. -/
def intToString (n : Int) : String := String.mk (intToChars n)

/-- Parse a signed base-10 integer, as `astype('int64')` of a string column
does; fails (returns `none`) on anything that is not an optionally signed
run of decimal digits. -/
def parseIntChars (cs : List Char) : Option Int :=
  if cs.head? = some '-' then
    (if cs.tail ≠ [] ∧ cs.tail.all isDig then some (-(digitsVal cs.tail : Int)) else none)
  else if cs ≠ [] ∧ cs.all isDig then some (digitsVal cs) else none

/-- Parse a signed base-10 integer from a string. -/
def parseIntStr (s : String) : Option Int := parseIntChars s.data

theorem natToChars_head_isDig (n : Nat) :
    ∀ c, (natToChars n).head? = some c → isDig c = true := by
  intro c hc
  cases h : natToChars n with
  | nil => rw [h] at hc; simp at hc
  | cons a l =>
      rw [h] at hc
      simp only [List.head?_cons, Option.some.injEq] at hc
      subst hc
      exact isDig_natToChars n a (by rw [h]; exact List.mem_cons_self a l)

theorem parseIntChars_intToChars (n : Int) : parseIntChars (intToChars n) = some n := by
  by_cases h : n < 0
  · have : intToChars n = '-' :: natToChars n.natAbs := by
      unfold intToChars; rw [if_pos h]; rfl
    rw [this]
    unfold parseIntChars
    have hc : ('-' :: natToChars n.natAbs).head? = some '-' := rfl
    rw [if_pos hc]
    have hall : (natToChars n.natAbs).all isDig = true :=
      List.all_eq_true.mpr (isDig_natToChars n.natAbs)
    rw [if_pos ⟨natToChars_ne_nil n.natAbs, hall⟩]
    simp only [List.tail_cons, digitsVal_natToChars, Option.some.injEq]
    omega
  · have : intToChars n = natToChars n.natAbs := by
      unfold intToChars; rw [if_neg h]; rfl
    rw [this]
    unfold parseIntChars
    have hhead : ¬ (natToChars n.natAbs).head? = some '-' := by
      intro hc
      have := natToChars_head_isDig n.natAbs '-' hc
      simp [isDig, charDigit?] at this
    rw [if_neg hhead]
    have hall : (natToChars n.natAbs).all isDig = true :=
      List.all_eq_true.mpr (isDig_natToChars n.natAbs)
    rw [if_pos ⟨natToChars_ne_nil n.natAbs, hall⟩]
    simp only [digitsVal_natToChars, Option.some.injEq]
    omega

theorem parseIntStr_intToString (n : Int) : parseIntStr (intToString n) = some n :=
  parseIntChars_intToChars n

/-! ## Exact decimal floats

`astype('float64')` parses decimal strings and `to_csv` prints the floats
back.  Finite values are embedded exactly as `m / 10 ^ e` in canonical
form (no factor of 10 left in the fraction), so that printing and parsing
are exact inverses, mirroring the exact decimal round-trip of the source's
repr-based float formatting. -/

/-- Strip factors of ten from `m / 10 ^ e` to reach the canonical form. -/
def normNum (m : Int) : Nat → Int × Nat
  | 0 => (m, 0)
  | e + 1 => if (10 : Int) ∣ m then normNum (m / 10) e else (m, e + 1)

/-- A `FloatVal` is canonical when its fraction carries no factor of ten. -/
def FloatCanon : FloatVal → Prop
  | .nan => True
  | .fin m e => e = 0 ∨ ¬ (10 : Int) ∣ m

theorem normNum_canon (e : Nat) (m : Int) :
    (normNum m e).2 = 0 ∨ ¬ (10 : Int) ∣ (normNum m e).1 := by
  induction e generalizing m with
  | zero => left; rfl
  | succ e ih =>
      unfold normNum
      by_cases h : (10 : Int) ∣ m
      · rw [if_pos h]; exact ih (m / 10)
      · rw [if_neg h]; right; exact h

/-- The signed mantissa read from the digit characters. -/
def signedVal (neg : Bool) (ints frac : List Char) : Int :=
  if neg then -(digitsVal (ints ++ frac) : Int) else (digitsVal (ints ++ frac) : Int)

/-- Assemble the parsed sign, integral digits, fractional digits and
exponent into a canonical finite float value. -/
def mkFloat (neg : Bool) (ints frac : List Char) (exp : Int) : FloatVal :=
  if (frac.length : Int) - exp ≤ 0 then
    .fin (signedVal neg ints frac * 10 ^ (exp - (frac.length : Int)).toNat) 0
  else
    FloatVal.fin (normNum (signedVal neg ints frac) ((frac.length : Int) - exp).toNat).1
      (normNum (signedVal neg ints frac) ((frac.length : Int) - exp).toNat).2

/-- Parse an optional exponent suffix (`e`/`E`, optional sign, digits);
an empty input means exponent zero. -/
def parseExp (cs : List Char) : Option Int :=
  match cs with
  | [] => some 0
  | c :: rest =>
    if c = 'e' ∨ c = 'E' then
      let neg : Bool := rest.head? == some '-'
      let ds := if rest.head? = some '-' ∨ rest.head? = some '+' then rest.tail else rest
      if ds ≠ [] ∧ ds.all isDig then
        some (if neg then -(digitsVal ds : Int) else (digitsVal ds : Int))
      else none
    else none

/-- Final stage of float parsing: check some digits were seen, then
apply the exponent. -/
def parseFloatFin (neg : Bool) (ints frac cs3 : List Char) : Option FloatVal :=
  if ints ++ frac = [] then none
  else
    match parseExp cs3 with
    | some exp => some (mkFloat neg ints frac exp)
    | none => none

/-- After the integral digits: an optional `.`-prefixed fractional part. -/
def parseFloatTail (neg : Bool) (ints cs2 : List Char) : Option FloatVal :=
  if cs2.head? = some '.' then
    parseFloatFin neg ints (cs2.tail.takeWhile isDig) (cs2.tail.dropWhile isDig)
  else parseFloatFin neg ints [] cs2

/-- Parse the unsigned part of a decimal float literal (digits, optional
fractional part, optional exponent). -/
def parseFloatBody (neg : Bool) (cs1 : List Char) : Option FloatVal :=
  parseFloatTail neg (cs1.takeWhile isDig) (cs1.dropWhile isDig)

/-- Parse a decimal float literal (optional sign, digits, optional
fractional part, optional exponent), as Python's float conversion used by
`astype('float64')` does. -/
def parseFloatChars (cs : List Char) : Option FloatVal :=
  if cs.head? = some '-' then parseFloatBody true cs.tail
  else parseFloatBody false cs

/-- Parse a float from a string; the literal string `"nan"` (which is what
`astype(str)` makes of a missing value) parses to the float `nan`. -/
def parseFloatStr (s : String) : Option FloatVal :=
  if s = "nan" then some .nan else parseFloatChars s.data

/-- The little-endian digits of `|m|`, zero-padded so that a decimal
point can be placed `e` digits from the low end with at least one
integral digit remaining. -/
def padOf (m : Int) (e : Nat) : List Nat :=
  Nat.digits 10 m.natAbs ++
    List.replicate (e + 1 - (Nat.digits 10 m.natAbs).length) 0

/-- The printed integral digit characters of `m / 10 ^ e`. -/
def ipOf (m : Int) (e : Nat) : List Char :=
  (((padOf m e).drop e).map digitChar).reverse

/-- The printed fractional digit characters of `m / 10 ^ e`; integral
values print a single `0` after the point. -/
def frOf (m : Int) (e : Nat) : List Char :=
  if e = 0 then ['0'] else (((padOf m e).take e).map digitChar).reverse

/-- Render a finite decimal float `m / 10 ^ e` the way the source's float
formatting does: sign, integral digits, a dot, and either the fractional
digits or a single `0` for integral values. -/
def floatToChars (m : Int) (e : Nat) : List Char :=
  (if m < 0 then ['-'] else []) ++ ipOf m e ++ '.' :: frOf m e

/-- String rendering of a float value; `nan` renders as the string
`"nan"` (the value `str()` gives it). -/
def floatValToString : FloatVal → String
  | .nan => "nan"
  | .fin m e => String.mk (floatToChars m e)

theorem takeWhile_append_all {α} {p : α → Bool} {l r : List α}
    (h : ∀ c ∈ l, p c = true) : (l ++ r).takeWhile p = l ++ r.takeWhile p := by
  induction l with
  | nil => rfl
  | cons a l ih =>
      simp [List.takeWhile_cons, h a (List.mem_cons_self a l),
        ih fun c hc => h c (List.mem_cons_of_mem a hc)]

theorem dropWhile_append_all {α} {p : α → Bool} {l r : List α}
    (h : ∀ c ∈ l, p c = true) : (l ++ r).dropWhile p = r.dropWhile p := by
  induction l with
  | nil => rfl
  | cons a l ih =>
      simp [List.dropWhile_cons, h a (List.mem_cons_self a l),
        ih fun c hc => h c (List.mem_cons_of_mem a hc)]

theorem takeWhile_of_all {α} {p : α → Bool} {l : List α}
    (h : ∀ c ∈ l, p c = true) : l.takeWhile p = l := by
  have := takeWhile_append_all (r := []) h
  simpa using this

theorem dropWhile_of_all {α} {p : α → Bool} {l : List α}
    (h : ∀ c ∈ l, p c = true) : l.dropWhile p = [] := by
  have := dropWhile_append_all (r := []) h
  simpa using this

theorem takeWhile_cons_neg {α} {p : α → Bool} {a : α} {l : List α}
    (h : p a = false) : (a :: l).takeWhile p = [] := by
  simp [List.takeWhile_cons, h]

theorem dropWhile_cons_neg {α} {p : α → Bool} {a : α} {l : List α}
    (h : p a = false) : (a :: l).dropWhile p = a :: l := by
  simp [List.dropWhile_cons, h]

theorem ofDigits_replicate_zero (k : Nat) :
    Nat.ofDigits 10 (List.replicate k 0) = 0 := by
  induction k with
  | zero => rfl
  | succ k ih => simp [List.replicate_succ, Nat.ofDigits_cons, ih]

theorem digitsVal_rev_pair {A B : List Nat}
    (hA : ∀ d ∈ A, d < 10) (hB : ∀ d ∈ B, d < 10) :
    digitsVal ((A.map digitChar).reverse ++ (B.map digitChar).reverse)
      = Nat.ofDigits 10 (B ++ A) := by
  unfold digitsVal
  rw [List.map_append, List.map_reverse, List.map_reverse,
    map_charDigitD_map_digitChar hA, map_charDigitD_map_digitChar hB,
    List.reverse_append, List.reverse_reverse, List.reverse_reverse]

theorem parseFloatBody_print {b : Bool} {ip fr : List Char}
    (hip : ∀ c ∈ ip, isDig c = true) (hfr : ∀ c ∈ fr, isDig c = true)
    (hne : ip ≠ []) :
    parseFloatBody b (ip ++ '.' :: fr) = some (mkFloat b ip fr 0) := by
  have hdot : isDig '.' = false := rfl
  unfold parseFloatBody
  rw [takeWhile_append_all hip, dropWhile_append_all hip,
    takeWhile_cons_neg hdot, dropWhile_cons_neg hdot]
  rw [List.append_nil]
  unfold parseFloatTail
  have hh : ('.' :: fr).head? = some '.' := rfl
  rw [if_pos hh]
  simp only [List.tail_cons]
  rw [takeWhile_of_all hfr, dropWhile_of_all hfr]
  unfold parseFloatFin
  have hcat : ip ++ fr ≠ [] := fun hh2 => hne (List.append_eq_nil.mp hh2).1
  rw [if_neg hcat]
  rfl

theorem padOf_lt (m : Int) (e : Nat) : ∀ d ∈ padOf m e, d < 10 := by
  intro d hd
  rcases List.mem_append.mp hd with h | h
  · exact Nat.digits_lt_base (by norm_num) h
  · rw [List.eq_of_mem_replicate h]; norm_num

theorem padOf_len (m : Int) (e : Nat) : e + 1 ≤ (padOf m e).length := by
  unfold padOf
  rw [List.length_append, List.length_replicate]
  omega

theorem ofDigits_padOf (m : Int) (e : Nat) :
    Nat.ofDigits 10 (padOf m e) = m.natAbs := by
  unfold padOf
  rw [Nat.ofDigits_append, ofDigits_replicate_zero, Nat.ofDigits_digits]
  ring

theorem ipOf_digits (m : Int) (e : Nat) : ∀ c ∈ ipOf m e, isDig c = true := by
  intro c hc
  unfold ipOf at hc
  rw [List.mem_reverse, List.mem_map] at hc
  obtain ⟨d, hd, rfl⟩ := hc
  exact isDig_digitChar (padOf_lt m e d (List.mem_of_mem_drop hd))

theorem frOf_digits (m : Int) (e : Nat) : ∀ c ∈ frOf m e, isDig c = true := by
  intro c hc
  unfold frOf at hc
  by_cases h : e = 0
  · rw [if_pos h] at hc
    simp only [List.mem_singleton] at hc
    subst hc; rfl
  · rw [if_neg h] at hc
    rw [List.mem_reverse, List.mem_map] at hc
    obtain ⟨d, hd, rfl⟩ := hc
    exact isDig_digitChar (padOf_lt m e d (List.mem_of_mem_take hd))

theorem ipOf_ne_nil (m : Int) (e : Nat) : ipOf m e ≠ [] := by
  unfold ipOf
  intro h
  have hlen := congrArg List.length h
  simp only [List.length_reverse, List.length_map, List.length_drop,
    List.length_nil] at hlen
  have := padOf_len m e
  omega

theorem frOf_length (m : Int) (e : Nat) :
    (frOf m e).length = if e = 0 then 1 else e := by
  unfold frOf
  by_cases h : e = 0
  · rw [if_pos h, if_pos h]; rfl
  · rw [if_neg h, if_neg h]
    simp only [List.length_reverse, List.length_map, List.length_take]
    have := padOf_len m e
    omega

theorem digitsVal_ip_fr (m : Int) (e : Nat) :
    digitsVal (ipOf m e ++ frOf m e) =
      if e = 0 then 10 * m.natAbs else m.natAbs := by
  by_cases h : e = 0
  · subst h
    rw [if_pos rfl]
    unfold frOf
    rw [if_pos rfl]
    have h0 : (['0'] : List Char) = (([0] : List Nat).map digitChar).reverse := rfl
    rw [h0]
    unfold ipOf
    rw [digitsVal_rev_pair (fun d hd => padOf_lt m 0 d (List.mem_of_mem_drop hd))
      (by intro d hd; simp only [List.mem_singleton] at hd; subst hd; norm_num)]
    rw [List.drop_zero, List.singleton_append, Nat.ofDigits_cons, ofDigits_padOf]
    ring
  · rw [if_neg h]
    unfold frOf
    rw [if_neg h]
    unfold ipOf
    rw [digitsVal_rev_pair (fun d hd => padOf_lt m e d (List.mem_of_mem_drop hd))
      (fun d hd => padOf_lt m e d (List.mem_of_mem_take hd))]
    rw [List.take_append_drop, ofDigits_padOf]

theorem signedVal_print (m : Int) (e : Nat) (b : Bool) (hb : b = decide (m < 0)) :
    signedVal b (ipOf m e) (frOf m e) = if e = 0 then 10 * m else m := by
  unfold signedVal
  rw [digitsVal_ip_fr]
  subst hb
  by_cases h : e = 0
  · rw [if_pos h, if_pos h]
    by_cases hneg : m < 0
    · rw [if_pos (by rw [decide_eq_true hneg])]; omega
    · rw [if_neg (by rw [decide_eq_false hneg]; simp)]; omega
  · rw [if_neg h, if_neg h]
    by_cases hneg : m < 0
    · rw [if_pos (by rw [decide_eq_true hneg])]; omega
    · rw [if_neg (by rw [decide_eq_false hneg]; simp)]; omega

theorem mkFloat_print_eval (m : Int) (e : Nat) (b : Bool)
    (hb : b = decide (m < 0)) (hcanon : e = 0 ∨ ¬ (10 : Int) ∣ m) :
    mkFloat b (ipOf m e) (frOf m e) 0 = FloatVal.fin m e := by
  by_cases h : e = 0
  · subst h
    have hsv : signedVal b (ipOf m 0) (frOf m 0) = 10 * m := by
      rw [signedVal_print m 0 b hb]
      exact if_pos rfl
    have hfl : (((frOf m 0).length : Nat) : Int) = 1 := by
      rw [frOf_length]
      norm_num
    unfold mkFloat
    rw [hsv, hfl, sub_zero]
    rw [if_neg (by norm_num)]
    have h10 : (10 : Int) ∣ 10 * m := Dvd.intro m rfl
    have hnn : normNum (10 * m) ((1 : Int).toNat) = (m, 0) := by
      have h1 : ((1 : Int)).toNat = 1 := rfl
      rw [h1]
      unfold normNum
      rw [if_pos h10, Int.mul_ediv_cancel_left m (by norm_num)]
      rfl
    rw [hnn]
  · rcases hcanon with hc | hnd
    · exact absurd hc h
    · have hsv : signedVal b (ipOf m e) (frOf m e) = m := by
        rw [signedVal_print m e b hb]
        exact if_neg h
      have hfl : (((frOf m e).length : Nat) : Int) = (e : Int) := by
        rw [frOf_length, if_neg h]
      unfold mkFloat
      rw [hsv, hfl, sub_zero]
      rw [if_neg (show ¬ (e : Int) ≤ 0 by omega)]
      have htn : ((e : Int)).toNat = e := by omega
      rw [htn]
      obtain ⟨s, rfl⟩ : ∃ s, e = s + 1 := ⟨e - 1, by omega⟩
      have hnn : normNum m (s + 1) = (m, s + 1) := by
        unfold normNum
        rw [if_neg hnd]
      rw [hnn]

theorem parseFloatChars_floatToChars (m : Int) (e : Nat)
    (hcanon : e = 0 ∨ ¬ (10 : Int) ∣ m) :
    parseFloatChars (floatToChars m e) = some (FloatVal.fin m e) := by
  by_cases hneg : m < 0
  · have hprint : floatToChars m e = '-' :: (ipOf m e ++ '.' :: frOf m e) := by
      unfold floatToChars
      rw [if_pos hneg]
      rfl
    rw [hprint]
    unfold parseFloatChars
    have hh : ('-' :: (ipOf m e ++ '.' :: frOf m e)).head? = some '-' := rfl
    rw [if_pos hh]
    simp only [List.tail_cons]
    rw [parseFloatBody_print (ipOf_digits m e) (frOf_digits m e) (ipOf_ne_nil m e)]
    rw [mkFloat_print_eval m e true (by simp [hneg]) hcanon]
  · have hprint : floatToChars m e = ipOf m e ++ '.' :: frOf m e := by
      unfold floatToChars
      rw [if_neg hneg]
      rfl
    rw [hprint]
    unfold parseFloatChars
    obtain ⟨c0, ip', hip'⟩ := List.exists_cons_of_ne_nil (ipOf_ne_nil m e)
    have hc0 : isDig c0 = true := ipOf_digits m e c0 (by rw [hip']; exact List.mem_cons_self c0 ip')
    have hh : ¬ ((ipOf m e ++ '.' :: frOf m e).head? = some '-') := by
      rw [hip']
      simp only [List.cons_append, List.head?_cons, Option.some.injEq]
      intro hcc
      subst hcc
      simp [isDig, charDigit?] at hc0
    rw [if_neg hh]
    rw [parseFloatBody_print (ipOf_digits m e) (frOf_digits m e) (ipOf_ne_nil m e)]
    rw [mkFloat_print_eval m e false (by simp [hneg]) hcanon]

theorem mkFloat_canon (b : Bool) (ints frac : List Char) (exp : Int) :
    FloatCanon (mkFloat b ints frac exp) := by
  unfold mkFloat
  by_cases h : (frac.length : Int) - exp ≤ 0
  · rw [if_pos h]; left; rfl
  · rw [if_neg h]
    exact normNum_canon _ _

theorem parseFloatStr_canon (s : String) (v : FloatVal)
    (h : parseFloatStr s = some v) : FloatCanon v := by
  unfold parseFloatStr at h
  by_cases hn : s = "nan"
  · rw [if_pos hn] at h
    cases h; trivial
  · rw [if_neg hn] at h
    unfold parseFloatChars at h
    have hbody : ∀ b cs, parseFloatBody b cs = some v → FloatCanon v := by
      intro b cs hb
      unfold parseFloatBody parseFloatTail at hb
      by_cases hd : (cs.dropWhile isDig).head? = some '.' <;>
        [rw [if_pos hd] at hb; rw [if_neg hd] at hb] <;>
      · unfold parseFloatFin at hb
        split at hb
        · exact absurd hb (by simp)
        · split at hb
          · cases hb; exact mkFloat_canon _ _ _ _
          · exact absurd hb (by simp)
    by_cases hm : s.data.head? = some '-'
    · rw [if_pos hm] at h; exact hbody _ _ h
    · rw [if_neg hm] at h; exact hbody _ _ h

theorem dot_mem_floatToChars (m : Int) (e : Nat) : '.' ∈ floatToChars m e := by
  unfold floatToChars
  refine List.mem_append.mpr (Or.inr ?_)
  exact List.mem_cons_self _ _

theorem parseFloatStr_floatValToString (v : FloatVal) (hc : FloatCanon v) :
    parseFloatStr (floatValToString v) = some v := by
  cases v with
  | nan => rfl
  | fin m e =>
      unfold floatValToString parseFloatStr
      have hne : String.mk (floatToChars m e) ≠ "nan" := by
        intro hh
        have hdata : floatToChars m e = "nan".data := congrArg String.data hh
        have := dot_mem_floatToChars m e
        rw [hdata] at this
        simp at this
      rw [if_neg hne]
      exact parseFloatChars_floatToChars m e hc

/-! ## CSV rendering and parsing

`to_csv` renders rows with standard CSV quoting (fields containing the
delimiter, quote or newline are quoted, quotes doubled; a trailing
newline ends each row); `read_csv` parses them back.  Missing values are
written as empty fields and empty fields read back as missing. -/

/-- Does this field need CSV quoting? -/
def needsQuote (cs : List Char) : Bool :=
  cs.any (fun c => c = ',' || c = '"' || c = '\n')

/-- Double every quote character, per standard CSV escaping. -/
def escapeChars : List Char → List Char
  | [] => []
  | c :: cs => if c = '"' then '"' :: '"' :: escapeChars cs else c :: escapeChars cs

/-- Render one CSV field, quoting it when needed. -/
def renderField (s : String) : List Char :=
  if needsQuote s.data then '"' :: (escapeChars s.data ++ ['"']) else s.data

/-- Render one CSV row, comma-separated. -/
def renderRow : List String → List Char
  | [] => []
  | [f] => renderField f
  | f :: g :: fs => renderField f ++ ',' :: renderRow (g :: fs)

/-- Render a CSV file: each row followed by a newline. -/
def renderFile : List (List String) → List Char
  | [] => []
  | r :: rs => renderRow r ++ '\n' :: renderFile rs

/-- Characters that continue an unquoted field. -/
def notFieldEnd (c : Char) : Bool := !(c = ',' || c = '\n')

/-- Parse the body of a quoted field (after its opening quote): a doubled
quote stands for one quote, a lone quote closes the field. -/
def parseQuotedTail : Nat → List Char → Option (List Char × List Char)
  | 0, _ => none
  | _ + 1, [] => none
  | fuel + 1, c :: cs =>
    if c = '"' then
      if cs.head? = some '"' then
        (parseQuotedTail fuel cs.tail).map (fun p => ('"' :: p.1, p.2))
      else some ([], cs)
    else (parseQuotedTail fuel cs).map (fun p => (c :: p.1, p.2))

/-- Parse one CSV field: quoted when it starts with a quote, otherwise
everything up to the next delimiter or newline. -/
def parseFieldAux (fuel : Nat) (cs : List Char) : Option (String × List Char) :=
  if cs.head? = some '"' then
    (parseQuotedTail fuel cs.tail).map (fun p => (String.mk p.1, p.2))
  else some (String.mk (cs.takeWhile notFieldEnd), cs.dropWhile notFieldEnd)

/-- Parse one CSV row: fields separated by commas, ended by a newline or
the end of input. -/
def parseRowAux : Nat → List Char → Option (List String × List Char)
  | 0, _ => none
  | fuel + 1, cs =>
    match parseFieldAux (cs.length + 1) cs with
    | none => none
    | some (f, r) =>
      match r with
      | [] => some ([f], [])
      | c :: r2 =>
        if c = ',' then
          match parseRowAux fuel r2 with
          | some p => some (f :: p.1, p.2)
          | none => none
        else if c = '\n' then some ([f], r2)
        else none

/-- Parse a CSV file: rows until the input is exhausted. -/
def parseFileAux : Nat → List Char → Option (List (List String))
  | 0, cs => if cs = [] then some [] else none
  | fuel + 1, cs =>
    if cs = [] then some []
    else
      match parseRowAux (cs.length + 1) cs with
      | none => none
      | some (row, rest) =>
        match parseFileAux fuel rest with
        | some rows => some (row :: rows)
        | none => none

/-- Parse a whole CSV document into its rows of string fields. -/
def parseCsv (s : String) : Option (List (List String)) :=
  parseFileAux (s.data.length + 1) s.data

theorem escapeChars_len (f : List Char) : f.length ≤ (escapeChars f).length := by
  induction f with
  | nil => simp [escapeChars]
  | cons c cs ih =>
      unfold escapeChars
      by_cases h : c = '"'
      · rw [if_pos h]; simp only [List.length_cons]; omega
      · rw [if_neg h]; simp only [List.length_cons]; omega

theorem renderField_len (s : String) : s.data.length ≤ (renderField s).length := by
  unfold renderField
  by_cases h : needsQuote s.data
  · rw [if_pos h]
    simp only [List.length_cons, List.length_append, List.length_singleton]
    have := escapeChars_len s.data
    omega
  · rw [if_neg h]

theorem renderRow_len (r : List String) : r.length ≤ (renderRow r).length + 1 := by
  induction r with
  | nil => simp [renderRow]
  | cons f fs ih =>
      cases fs with
      | nil => simp [renderRow]
      | cons g gs =>
          have hr : renderRow (f :: g :: gs) = renderField f ++ ',' :: renderRow (g :: gs) := rfl
          rw [hr]
          simp only [List.length_append, List.length_cons] at ih ⊢
          omega

theorem renderFile_len (rows : List (List String)) :
    rows.length ≤ (renderFile rows).length := by
  induction rows with
  | nil => simp [renderFile]
  | cons r rs ih =>
      have hr : renderFile (r :: rs) = renderRow r ++ '\n' :: renderFile rs := rfl
      rw [hr]
      simp only [List.length_append, List.length_cons] at ih ⊢
      omega

theorem not_needsQuote_all {l : List Char} (h : needsQuote l = false) :
    ∀ c ∈ l, notFieldEnd c = true ∧ ¬ c = '"' := by
  intro c hc
  unfold needsQuote at h
  rw [List.any_eq_false] at h
  have hco := h c hc
  simp only [Bool.or_eq_true, decide_eq_true_eq, not_or] at hco
  refine ⟨?_, hco.1.2⟩
  simp [notFieldEnd, hco.1.1, hco.2]

theorem parseQuotedTail_escape (f : List Char) :
    ∀ fuel rest, f.length + 1 ≤ fuel → rest.head? ≠ some '"' →
    parseQuotedTail fuel (escapeChars f ++ '"' :: rest) = some (f, rest) := by
  induction f with
  | nil =>
      intro fuel rest hfuel hrest
      obtain ⟨k, rfl⟩ : ∃ k, fuel = k + 1 := ⟨fuel - 1, by omega⟩
      have he : escapeChars [] = [] := rfl
      rw [he, List.nil_append]
      unfold parseQuotedTail
      rw [if_pos rfl, if_neg hrest]
  | cons a f ih =>
      intro fuel rest hfuel hrest
      obtain ⟨k, rfl⟩ : ∃ k, fuel = k + 1 := ⟨fuel - 1, by omega⟩
      simp only [List.length_cons] at hfuel
      by_cases ha : a = '"'
      · subst ha
        have he : escapeChars ('"' :: f) = '"' :: '"' :: escapeChars f := rfl
        rw [he]
        simp only [List.cons_append]
        unfold parseQuotedTail
        rw [if_pos rfl]
        have hh : ('"' :: (escapeChars f ++ '"' :: rest)).head? = some '"' := rfl
        rw [if_pos hh]
        simp only [List.tail_cons]
        rw [ih k rest (by omega) hrest]
        rfl
      · have he : escapeChars (a :: f) = a :: escapeChars f := by
          conv_lhs => unfold escapeChars
          rw [if_neg ha]
        rw [he]
        simp only [List.cons_append]
        unfold parseQuotedTail
        rw [if_neg ha]
        rw [ih k rest (by omega) hrest]
        rfl

theorem parseFieldAux_render (s : String) (fuel : Nat) (rest : List Char)
    (hfuel : s.data.length + 1 ≤ fuel)
    (hrest : rest = [] ∨ rest.head? = some ',' ∨ rest.head? = some '\n') :
    parseFieldAux fuel (renderField s ++ rest) = some (s, rest) := by
  have hrq : rest.head? ≠ some '"' := by
    rcases hrest with h | h | h <;> rw [h] <;> simp
  by_cases hq : needsQuote s.data
  · have hrf : renderField s = '"' :: (escapeChars s.data ++ ['"']) := by
      unfold renderField; rw [if_pos hq]
    rw [hrf]
    simp only [List.cons_append, List.append_assoc, List.singleton_append, List.nil_append]
    unfold parseFieldAux
    have hh : ('"' :: (escapeChars s.data ++ '"' :: rest)).head? = some '"' := rfl
    rw [if_pos hh]
    simp only [List.tail_cons]
    rw [parseQuotedTail_escape s.data fuel rest hfuel hrq]
    rfl
  · have hall := not_needsQuote_all (Bool.of_not_eq_true hq)
    have hrf : renderField s = s.data := by
      unfold renderField; rw [if_neg hq]
    rw [hrf]
    unfold parseFieldAux
    have hh : ¬ ((s.data ++ rest).head? = some '"') := by
      cases hd : s.data with
      | nil => simpa using hrq
      | cons c cs =>
          simp only [List.cons_append, List.head?_cons, Option.some.injEq]
          exact fun hcq => (hall c (by rw [hd]; exact List.mem_cons_self c cs)).2 hcq
    rw [if_neg hh]
    have htw : (s.data ++ rest).takeWhile notFieldEnd = s.data := by
      rw [takeWhile_append_all (fun c hc => (hall c hc).1)]
      rcases hrest with h | h | h
      · rw [h]; simp
      · cases rest with
        | nil => simp at h
        | cons c cs =>
            simp only [List.head?_cons, Option.some.injEq] at h
            subst h
            rw [takeWhile_cons_neg rfl, List.append_nil]
      · cases rest with
        | nil => simp at h
        | cons c cs =>
            simp only [List.head?_cons, Option.some.injEq] at h
            subst h
            rw [takeWhile_cons_neg rfl, List.append_nil]
    have hdw : (s.data ++ rest).dropWhile notFieldEnd = rest := by
      rw [dropWhile_append_all (fun c hc => (hall c hc).1)]
      rcases hrest with h | h | h
      · rw [h]; rfl
      · cases rest with
        | nil => simp at h
        | cons c cs =>
            simp only [List.head?_cons, Option.some.injEq] at h
            subst h
            exact dropWhile_cons_neg rfl
      · cases rest with
        | nil => simp at h
        | cons c cs =>
            simp only [List.head?_cons, Option.some.injEq] at h
            subst h
            exact dropWhile_cons_neg rfl
    rw [htw, hdw]

theorem parseRowAux_step (fuel : Nat) (cs : List Char) (f : String) (r2 : List Char)
    (h : parseFieldAux (cs.length + 1) cs = some (f, ',' :: r2)) :
    parseRowAux (fuel + 1) cs =
      (match parseRowAux fuel r2 with
        | some p => some (f :: p.1, p.2)
        | none => none) := by
  conv_lhs => unfold parseRowAux
  rw [h]
  rfl

theorem parseRowAux_last (fuel : Nat) (cs : List Char) (f : String) (r2 : List Char)
    (h : parseFieldAux (cs.length + 1) cs = some (f, '\n' :: r2)) :
    parseRowAux (fuel + 1) cs = some ([f], r2) := by
  conv_lhs => unfold parseRowAux
  rw [h]
  rfl

theorem parseFileAux_step (fuel : Nat) (cs : List Char) (row : List String)
    (rest : List Char) (hne : cs ≠ [])
    (h : parseRowAux (cs.length + 1) cs = some (row, rest)) :
    parseFileAux (fuel + 1) cs =
      (match parseFileAux fuel rest with
        | some rows => some (row :: rows)
        | none => none) := by
  conv_lhs => unfold parseFileAux
  rw [if_neg hne, h]

theorem parseRowAux_render (r : List String) :
    ∀ fuel rest, r ≠ [] → r.length ≤ fuel →
    parseRowAux fuel (renderRow r ++ '\n' :: rest) = some (r, rest) := by
  induction r with
  | nil => intro fuel rest h _; exact absurd rfl h
  | cons f fs ih =>
      intro fuel rest _ hfuel
      simp only [List.length_cons] at hfuel
      obtain ⟨k, rfl⟩ : ∃ k, fuel = k + 1 := ⟨fuel - 1, by omega⟩
      cases fs with
      | nil =>
          have hr : renderRow [f] ++ '\n' :: rest = renderField f ++ '\n' :: rest := rfl
          rw [hr]
          have h1 : f.data.length + 1 ≤ (renderField f ++ '\n' :: rest).length + 1 := by
            have h2 := renderField_len f
            have h3 : (renderField f).length ≤ (renderField f ++ '\n' :: rest).length := by
              rw [List.length_append]; omega
            omega
          exact parseRowAux_last k _ f rest
            (parseFieldAux_render f _ ('\n' :: rest) h1 (Or.inr (Or.inr rfl)))
      | cons g gs =>
          have hr : renderRow (f :: g :: gs) ++ '\n' :: rest =
              renderField f ++ ',' :: (renderRow (g :: gs) ++ '\n' :: rest) := by
            have : renderRow (f :: g :: gs) = renderField f ++ ',' :: renderRow (g :: gs) := rfl
            rw [this]
            simp [List.append_assoc]
          rw [hr]
          have h1 : f.data.length + 1 ≤
              (renderField f ++ ',' :: (renderRow (g :: gs) ++ '\n' :: rest)).length + 1 := by
            have h2 := renderField_len f
            have h3 : (renderField f).length ≤
                (renderField f ++ ',' :: (renderRow (g :: gs) ++ '\n' :: rest)).length := by
              rw [List.length_append]; omega
            omega
          rw [parseRowAux_step k _ f (renderRow (g :: gs) ++ '\n' :: rest)
            (parseFieldAux_render f _ (',' :: (renderRow (g :: gs) ++ '\n' :: rest)) h1
              (Or.inr (Or.inl rfl)))]
          rw [ih k rest (List.cons_ne_nil g gs)
            (by simp only [List.length_cons] at hfuel ⊢; omega)]

theorem parseFileAux_render (rows : List (List String)) :
    ∀ fuel, (∀ row ∈ rows, row ≠ []) → rows.length ≤ fuel →
    parseFileAux fuel (renderFile rows) = some rows := by
  induction rows with
  | nil =>
      intro fuel _ _
      cases fuel with
      | zero => rfl
      | succ k => rfl
  | cons r rs ih =>
      intro fuel hne hfuel
      simp only [List.length_cons] at hfuel
      obtain ⟨k, rfl⟩ : ∃ k, fuel = k + 1 := ⟨fuel - 1, by omega⟩
      have hr : renderFile (r :: rs) = renderRow r ++ '\n' :: renderFile rs := rfl
      rw [hr]
      have hrne : renderRow r ++ '\n' :: renderFile rs ≠ [] := by
        intro h
        have := congrArg List.length h
        simp only [List.length_append, List.length_cons, List.length_nil] at this
        omega
      have hrow : parseRowAux ((renderRow r ++ '\n' :: renderFile rs).length + 1)
          (renderRow r ++ '\n' :: renderFile rs) = some (r, renderFile rs) := by
        apply parseRowAux_render r _ (renderFile rs) (hne r (List.mem_cons_self r rs))
        have h2 := renderRow_len r
        rw [List.length_append]
        simp only [List.length_cons]
        omega
      rw [parseFileAux_step k _ r (renderFile rs) hrne hrow]
      rw [ih k (fun row hrow2 => hne row (List.mem_cons_of_mem r hrow2)) (by omega)]

theorem parseCsv_renderFile (rows : List (List String))
    (hne : ∀ row ∈ rows, row ≠ []) :
    parseCsv (String.mk (renderFile rows)) = some rows := by
  unfold parseCsv
  exact parseFileAux_render rows _ hne
    (by have := renderFile_len rows; simp only; omega)

/-! ## Type assignment (`assign_types`)

The notebooks run, per declared column kind,
`selected_df[col].astype(str).astype('category' | 'int64' | 'float64' |
'string')`; `astype(str)` stringifies a missing value to `"nan"` and the
second `astype` parses under the declared kind. -/

/-- `astype(str)` on one cell: a missing value stringifies to `"nan"`. -/
def astypeStr : Cell → String
  | .missing => "nan"
  | .str s => s

/-- Coerce one stringified value under its declared kind.  Categorical and
text values are kept as strings (unseen categories are allowed); integer
and numeric values must parse, else `TypeCoercionError`; the target is
kept as a string (encoding happens separately). -/
def coerceStr (k : Kind) (s : String) : Except PrepError TValue :=
  match k with
  | .categorical => .ok (.cat s)
  | .integer =>
      match parseIntStr s with
      | some n => .ok (.intg n)
      | none => .error .TypeCoercionError
  | .numeric =>
      match parseFloatStr s with
      | some v => .ok (.num v)
      | none => .error .TypeCoercionError
  | .text => .ok (.txt s)
  | .target => .ok (.tgt s)

/-- Coerce one raw cell: `astype(str)` then the declared kind. -/
def coerceCell (k : Kind) (c : Cell) : Except PrepError TValue :=
  coerceStr k (astypeStr c)

/-- Coerce one row, pairing each header name with its cell. -/
def assignRow (sch : String → Kind) (hs : List String) (cells : List Cell) :
    Except PrepError (List TValue) :=
  (hs.zip cells).mapM (fun p => coerceCell (sch p.1) p.2)

/-- `assign_types` on a raw frame: coerce every cell under the kind its
column is declared with. -/
def assign_types (f : RawFrame) (sch : String → Kind) :
    Except PrepError TypedFrame := do
  let rows ← f.rows.mapM (fun r => assignRow sch f.header r)
  return ⟨f.header, rows⟩

/-- `str()` of an already-typed value, as `astype(str)` renders it. -/
def tvalueToStr : TValue → String
  | .cat s => s
  | .intg n => intToString n
  | .num v => floatValToString v
  | .txt s => s
  | .tgt s => s

/-- Re-coerce one already-typed row (a second `assign_types` run over its
own output: `astype(str)` stringifies the typed value first). -/
def assignRowTyped (sch : String → Kind) (hs : List String) (tvs : List TValue) :
    Except PrepError (List TValue) :=
  (hs.zip tvs).mapM (fun p => coerceStr (sch p.1) (tvalueToStr p.2))

/-- `assign_types` re-applied to its own (typed) output. -/
def assign_types_typed (t : TypedFrame) (sch : String → Kind) :
    Except PrepError TypedFrame := do
  let rows ← t.rows.mapM (fun r => assignRowTyped sch t.header r)
  return ⟨t.header, rows⟩

/-! ## Frame-level CSV writing and reading -/

/-- The CSV rendering of a typed value; the float `nan` is written as an
empty field (the default missing-value representation of `to_csv`). -/
def tvalueToCsvStr : TValue → String
  | .num .nan => ""
  | .cat s => s
  | .intg n => intToString n
  | .num v => floatValToString v
  | .txt s => s
  | .tgt s => s

/-- `write_csv` of a typed frame: optional header row, then each row's
values rendered and CSV-escaped, every row ended by a newline. -/
def write_csv (t : TypedFrame) (includeHeader : Bool) : String :=
  String.mk (renderFile
    ((if includeHeader then [t.header] else []) ++
      t.rows.map (fun r => r.map tvalueToCsvStr)))

/-- Reading one CSV field back: an empty field is a missing value. -/
def toCell (s : String) : Cell := if s = "" then .missing else .str s

/-- `read_csv` (with a header row): parse the document, take the first
row as the header and read the remaining fields as cells. -/
def read_csv (s : String) : Option RawFrame :=
  match parseCsv s with
  | some (h :: rs) => some ⟨h, rs.map (fun r => r.map toCell)⟩
  | _ => none

/-- Write a typed frame (with header) and read it back under the same
Field Schema: the round trip the spec describes. -/
def csv_round_trip (sch : String → Kind) (t : TypedFrame) :
    Except PrepError TypedFrame :=
  match read_csv (write_csv t true) with
  | none => .error .IOFailure
  | some r => assign_types r sch

/-! ## Field renaming -/

/-- Apply a rename map to one field name. -/
def applyRename (m : List (String × String)) (name : String) : String :=
  match m.lookup name with
  | some newName => newName
  | none => name

/-- Modelled from the spec: the `rename_fields` operation (the notebook
invokes pandas `DataFrame.rename` with a literal column map, whose body
is not part of this repository).  Per the spec it fails with
`SchemaMismatch` when a key of the map is absent from the header or the
renamed header would contain duplicate names; otherwise the named fields
are renamed and values and field order are unchanged. -/
def rename_fields (f : RawFrame) (m : List (String × String)) :
    Except PrepError RawFrame :=
  if (∀ p ∈ m, p.1 ∈ f.header) ∧ (f.header.map (applyRename m)).Nodup then
    .ok ⟨f.header.map (applyRename m), f.rows⟩
  else .error .SchemaMismatch

/-! ## Target label encoding -/

/-- Modelled from the spec: the distinct observed target strings in
lexicographic order (the notebook calls sklearn's
`LabelEncoder.fit_transform`, whose body is not part of this
repository). -/
def labelClasses (values : List String) : List String :=
  (values.dedup).insertionSort (· ≤ ·)

/-- The label map: each sorted distinct target string paired with its
dense integer code `0, 1, ...`. -/
def labelMapOf (values : List String) : List (String × Nat) :=
  (labelClasses values).zip (List.range (labelClasses values).length)

/-- Encode one target value through the label map. -/
def encodeValue (lm : List (String × Nat)) (v : String) : Nat :=
  (lm.lookup v).getD 0

/-- Modelled from the spec: `encode_target` — build the label map from
the observed values and replace each value by its integer code; fails
with `EmptyDatasetError` on an empty record set. -/
def encode_target (values : List String) :
    Except PrepError (List Nat × List (String × Nat)) :=
  if values = [] then .error .EmptyDatasetError
  else .ok (values.map (encodeValue (labelMapOf values)), labelMapOf values)

/-! ## Train/test splitting -/

/-- A linear congruential generator step: the explicit pseudo-random
state driving the shuffle (the seed is its initial state). -/
def lcgNext (s : Nat) : Nat := (1103515245 * s + 12345) % 2 ^ 31

/-- A Fisher-Yates shuffle driven by the seeded generator, fuel-indexed
by the list length so that it evaluates by structural reduction. -/
def fyAux {α : Type _} : Nat → Nat → List α → List α
  | 0, _, _ => []
  | _ + 1, _, [] => []
  | fuel + 1, s, x :: xs =>
      (x :: xs).get ⟨s % (xs.length + 1), Nat.mod_lt _ (Nat.succ_pos _)⟩ ::
        fyAux fuel (lcgNext s) ((x :: xs).eraseIdx (s % (xs.length + 1)))

/-- Modelled from the spec: the deterministic, seed-controlled
pseudo-random permutation of the row order. -/
def shuffle {α : Type _} (seed : Nat) (xs : List α) : List α :=
  fyAux xs.length seed xs

/-- The two record subsets produced by a split. -/
structure SplitResult (α : Type _) where
  test : List α
  train : List α
deriving DecidableEq

/-- Modelled from the spec: `split(records, test_fraction, seed)` (the
notebook calls `train_test_split(..., test_size=f, random_state=seed,
shuffle=True)`, whose body is not part of this repository).  Per the
spec: shuffle the rows with the seeded permutation, cut at
`round(N * test_fraction)`; the rows before the cut are the test set,
the rest the training set. -/
def train_test_split {α : Type _} (records : List α) (test_fraction : ℚ)
    (seed : Nat) : SplitResult α :=
  ⟨(shuffle seed records).take ((round ((records.length : ℚ) * test_fraction)).toNat),
   (shuffle seed records).drop ((round ((records.length : ℚ) * test_fraction)).toNat)⟩

theorem get_cons_eraseIdx_perm {α : Type _} :
    ∀ (l : List α) (i : Nat) (h : i < l.length),
    (l.get ⟨i, h⟩ :: l.eraseIdx i).Perm l := by
  intro l
  induction l with
  | nil => intro i h; simp at h
  | cons a t ih =>
      intro i h
      cases i with
      | zero => simp [List.eraseIdx]
      | succ j =>
          have hj : j < t.length := by simp at h; omega
          have h1 : (a :: t).get ⟨j + 1, h⟩ = t.get ⟨j, hj⟩ := rfl
          have h2 : (a :: t).eraseIdx (j + 1) = a :: t.eraseIdx j := rfl
          rw [h1, h2]
          exact (List.Perm.swap a (t.get ⟨j, hj⟩) (t.eraseIdx j)).trans
            (List.Perm.cons a (ih j hj))

theorem fyAux_perm {α : Type _} :
    ∀ (n : Nat) (s : Nat) (xs : List α), xs.length ≤ n → (fyAux n s xs).Perm xs := by
  intro n
  induction n with
  | zero =>
      intro s xs h
      have : xs = [] := List.length_eq_zero.mp (by omega)
      subst this
      exact List.Perm.refl _
  | succ n ih =>
      intro s xs h
      cases xs with
      | nil => exact List.Perm.refl _
      | cons x t =>
          have hi : s % (t.length + 1) < (x :: t).length := Nat.mod_lt _ (Nat.succ_pos _)
          have hlen : ((x :: t).eraseIdx (s % (t.length + 1))).length ≤ n := by
            rw [List.length_eraseIdx_of_lt hi]
            simp only [List.length_cons] at h ⊢
            omega
          exact (List.Perm.cons _ (ih (lcgNext s) _ hlen)).trans
            (get_cons_eraseIdx_perm (x :: t) _ hi)

theorem shuffle_perm {α : Type _} (seed : Nat) (xs : List α) :
    (shuffle seed xs).Perm xs :=
  fyAux_perm xs.length seed xs (le_refl _)

/-! ## The validation-service configuration (`application.yml`) -/

/-- The `rapide.PurposeCode` list of `application.yml`, in file order. -/
def PurposeCode : List String :=
  ["BONU", "CASH", "CBLK", "CCRD", "CORT", "DCRD", "DIVI", "DVPM", "EPAY",
   "FCIN", "FCOL", "GOVT", "HEDG", "ICCP", "IDCP", "INTC", "INTE", "LOAN",
   "MP2B", "MP2P", "OTHR", "PENS", "RPRE", "RRCT", "RVPM", "SALA", "SECU",
   "SSBE", "SUPP", "TAXS", "TRAD", "TREA", "VATX", "WHLD"]

/-- The `rapide.Currency` country-to-currency entries of
`application.yml`, in file order. -/
def Currency : List (String × String) :=
  [("US", "USD"), ("UK", "GBP"), ("GB", "GBP"), ("IN", "INR"),
   ("MX", "MXN"), ("CA", "CAD"), ("IE", "EUR"), ("TH", "THB")]

/-- The `rapide.InvalidMessageRetry` bound of `application.yml`. -/
def InvalidMessageRetry : Nat := 10

/-! ## Monadic helper lemmas for `Except`-valued `mapM` -/

theorem except_bind_ok {ε α β : Type _} (a : α) (g : α → Except ε β) :
    (Except.ok a >>= g) = g a := rfl

theorem except_bind_error {ε α β : Type _} (e : ε) (g : α → Except ε β) :
    ((Except.error e : Except ε α) >>= g) = Except.error e := rfl

theorem mapM_ok_of_forall {α β : Type _} {f : α → Except PrepError β} {g : α → β} :
    ∀ {l : List α}, (∀ x ∈ l, f x = .ok (g x)) → l.mapM f = .ok (l.map g) := by
  intro l
  induction l with
  | nil => intro _; rfl
  | cons x xs ih =>
      intro h
      rw [List.mapM_cons, h x (List.mem_cons_self x xs),
        except_bind_ok, ih fun y hy => h y (List.mem_cons_of_mem x hy), except_bind_ok]
      rfl

theorem mapM_cons_ok_inv {α β : Type _} {f : α → Except PrepError β} {x : α}
    {xs : List α} {ys : List β} (h : (x :: xs).mapM f = .ok ys) :
    ∃ y ys', f x = .ok y ∧ xs.mapM f = .ok ys' ∧ ys = y :: ys' := by
  rw [List.mapM_cons] at h
  cases hfx : f x with
  | error e => rw [hfx, except_bind_error] at h; exact absurd h (by simp)
  | ok y =>
      rw [hfx, except_bind_ok] at h
      cases hxs : xs.mapM f with
      | error e => rw [hxs, except_bind_error] at h; exact absurd h (by simp)
      | ok ys' =>
          rw [hxs, except_bind_ok] at h
          have : y :: ys' = ys := by
            have := h
            simp only [pure, Except.pure] at this
            exact Except.ok.inj this
          exact ⟨y, ys', rfl, rfl, this.symm⟩

theorem forall₂_of_mapM_ok {α β : Type _} {f : α → Except PrepError β} :
    ∀ {l : List α} {ys : List β}, l.mapM f = .ok ys →
      List.Forall₂ (fun x y => f x = .ok y) l ys := by
  intro l
  induction l with
  | nil =>
      intro ys h
      rw [List.mapM_nil] at h
      have : ([] : List β) = ys := by
        simp only [pure, Except.pure] at h
        exact Except.ok.inj h
      subst this
      exact List.Forall₂.nil
  | cons x xs ih =>
      intro ys h
      obtain ⟨y, ys', hfx, hxs, rfl⟩ := mapM_cons_ok_inv h
      exact List.Forall₂.cons hfx (ih hxs)

theorem mapM_error_of_mem {α β : Type _} {f : α → Except PrepError β}
    (hall : ∀ x e, f x = .error e → e = .TypeCoercionError) :
    ∀ {l : List α}, (∃ x ∈ l, f x = .error .TypeCoercionError) →
      l.mapM f = .error .TypeCoercionError := by
  intro l
  induction l with
  | nil =>
      intro h
      obtain ⟨x, hx, _⟩ := h
      simp at hx
  | cons a xs ih =>
      intro h
      obtain ⟨x, hx, hfx⟩ := h
      rw [List.mapM_cons]
      cases hfa : f a with
      | error e =>
          rw [except_bind_error, hall a e hfa]
      | ok b =>
          rw [except_bind_ok]
          have hx' : x ∈ xs := by
            cases List.mem_cons.mp hx with
            | inl heq => subst heq; rw [hfa] at hfx; exact absurd hfx (by simp)
            | inr hm => exact hm
          rw [ih ⟨x, hx', hfx⟩, except_bind_error]

theorem mapM_ok_of_forall_exists {α β : Type _} {f : α → Except PrepError β} :
    ∀ {l : List α}, (∀ x ∈ l, ∃ y, f x = .ok y) →
      ∃ ys, l.mapM f = .ok ys ∧ List.Forall₂ (fun x y => f x = .ok y) l ys := by
  intro l
  induction l with
  | nil => intro _; exact ⟨[], rfl, List.Forall₂.nil⟩
  | cons x xs ih =>
      intro h
      obtain ⟨y, hy⟩ := h x (List.mem_cons_self x xs)
      obtain ⟨ys, hys, hfa⟩ := ih fun a ha => h a (List.mem_cons_of_mem x ha)
      refine ⟨y :: ys, ?_, List.Forall₂.cons hy hfa⟩
      rw [List.mapM_cons, hy, except_bind_ok, hys, except_bind_ok]
      rfl

theorem forall₂_get? {α β : Type _} {R : α → β → Prop} :
    ∀ {l : List α} {ys : List β}, List.Forall₂ R l ys →
      ∀ (j : Nat) (a : α), l.get? j = some a → ∃ y, ys.get? j = some y ∧ R a y := by
  intro l ys h
  induction h with
  | nil => intro j a ha; simp at ha
  | @cons x y xs ys2 hr _ ih =>
      intro j a ha
      cases j with
      | zero =>
          simp only [List.get?_cons_zero, Option.some.injEq] at ha
          subst ha
          exact ⟨y, rfl, hr⟩
      | succ j =>
          simp only [List.get?_cons_succ] at ha ⊢
          exact ih j a ha

theorem zip_get? {α β : Type _} :
    ∀ (l1 : List α) (l2 : List β) (j : Nat) (a : α) (b : β),
      l1.get? j = some a → l2.get? j = some b → (l1.zip l2).get? j = some (a, b) := by
  intro l1
  induction l1 with
  | nil => intro l2 j a b ha; simp at ha
  | cons x xs ih =>
      intro l2 j a b ha hb
      cases l2 with
      | nil => simp at hb
      | cons y ys =>
          cases j with
          | zero =>
              simp only [List.get?_cons_zero, Option.some.injEq] at ha hb
              subst ha; subst hb
              simp [List.zip_cons_cons]
          | succ j =>
              simp only [List.get?_cons_succ] at ha hb
              simp only [List.zip_cons_cons, List.get?_cons_succ]
              exact ih ys j a b ha hb

theorem pairs_unique {α β : Type _} :
    ∀ {l : List (α × β)}, (l.map Prod.fst).Nodup →
      ∀ a b₁ b₂, (a, b₁) ∈ l → (a, b₂) ∈ l → b₁ = b₂ := by
  intro l
  induction l with
  | nil => intro _ a b₁ b₂ h1; simp at h1
  | cons p t ih =>
      intro hnd a b₁ b₂ h1 h2
      simp only [List.map_cons, List.nodup_cons] at hnd
      cases List.mem_cons.mp h1 with
      | inl he1 =>
          cases List.mem_cons.mp h2 with
          | inl he2 =>
              have hpair : (a, b₁) = (a, b₂) := he1.trans he2.symm
              exact congrArg Prod.snd hpair
          | inr hm2 =>
              exact absurd (List.mem_map.mpr ⟨(a, b₂), hm2, by rw [← he1]⟩) hnd.1
      | inr hm1 =>
          cases List.mem_cons.mp h2 with
          | inl he2 =>
              exact absurd (List.mem_map.mpr ⟨(a, b₁), hm1, by rw [← he2]⟩) hnd.1
          | inr hm2 => exact ih hnd.2 a b₁ b₂ hm1 hm2

/-! ## The claims -/

/-- C8: the validation-service configuration's country-to-currency table
is a many-to-one mapping — every listed country code maps to exactly one
currency code — with GB and UK both mapping to GBP, and the configuration
carries the bounded integer retry count 10 for invalid messages. -/
theorem c8_currency_config :
    (∀ country c₁ c₂, (country, c₁) ∈ Currency → (country, c₂) ∈ Currency → c₁ = c₂)
    ∧ ("GB", "GBP") ∈ Currency
    ∧ ("UK", "GBP") ∈ Currency
    ∧ InvalidMessageRetry = 10 ∧ 0 < InvalidMessageRetry := by
  refine ⟨?_, by decide, by decide, rfl, by decide⟩
  exact pairs_unique (l := Currency) (by decide)

/-- C10: the enumerated PurposeCode list of the validation-service
configuration is duplicate-free and in strictly ascending lexicographic
order. -/
theorem c10_purpose_codes :
    List.Sorted (· < ·) PurposeCode ∧ PurposeCode.Nodup := by
  constructor
  · have h : List.Pairwise (fun a b : String => a.toList < b.toList) PurposeCode := by decide
    exact h.imp fun hab => String.lt_iff_toList_lt.mpr hab
  · decide

theorem round_mul_le (N : Nat) (f : ℚ) (h1 : f < 1) (h0 : 0 < f) :
    round ((N : ℚ) * f) ≤ (N : Int) := by
  rw [round_eq]
  have hle : (N : ℚ) * f + 1 / 2 ≤ (N : ℚ) + 1 / 2 := by
    have : (N : ℚ) * f ≤ (N : ℚ) * 1 :=
      mul_le_mul_of_nonneg_left h1.le (Nat.cast_nonneg _)
    rw [mul_one] at this
    linarith
  calc ⌊(N : ℚ) * f + 1 / 2⌋ ≤ ⌊(N : ℚ) + 1 / 2⌋ := Int.floor_le_floor hle
  _ = (N : Int) := by
      rw [Int.floor_eq_iff]
      constructor
      · push_cast; linarith
      · push_cast; linarith

theorem round_mul_nonneg (N : Nat) (f : ℚ) (h0 : 0 < f) :
    0 ≤ round ((N : ℚ) * f) := by
  rw [round_eq]
  refine Int.floor_nonneg.mpr ?_
  have : (0 : ℚ) ≤ (N : ℚ) * f := mul_nonneg (Nat.cast_nonneg _) h0.le
  linarith

/-- C1: for a non-empty record set, a test fraction in `(0,1)` and any
seed, `split` returns two subsets whose concatenation is a permutation of
the input (so their union as sets of row identities is the input), with
`len(test) = round(N * f)` and `len(train) = N - len(test)`; when the
rows are distinct the two subsets are disjoint. -/
theorem c1_split_partition {α : Type _} (records : List α) (f : ℚ) (seed : Nat)
    (hne : records ≠ []) (h0 : 0 < f) (h1 : f < 1) :
    ((train_test_split records f seed).test ++
        (train_test_split records f seed).train).Perm records
    ∧ ((train_test_split records f seed).test.length : Int)
        = round ((records.length : ℚ) * f)
    ∧ (train_test_split records f seed).train.length
        = records.length - (train_test_split records f seed).test.length
    ∧ (records.Nodup →
        ∀ x ∈ (train_test_split records f seed).test,
          x ∉ (train_test_split records f seed).train) := by
  have hperm := shuffle_perm seed records
  have hlenS : (shuffle seed records).length = records.length := hperm.length_eq
  have hr_le := round_mul_le records.length f h1 h0
  have hr_nonneg := round_mul_nonneg records.length f h0
  have hnT_le : (round ((records.length : ℚ) * f)).toNat ≤ records.length := by omega
  have htest : (train_test_split records f seed).test =
      (shuffle seed records).take ((round ((records.length : ℚ) * f)).toNat) := rfl
  have htrain : (train_test_split records f seed).train =
      (shuffle seed records).drop ((round ((records.length : ℚ) * f)).toNat) := rfl
  have hlen_test : (train_test_split records f seed).test.length =
      (round ((records.length : ℚ) * f)).toNat := by
    rw [htest, List.length_take, hlenS]
    omega
  refine ⟨?_, ?_, ?_, ?_⟩
  · rw [htest, htrain, List.take_append_drop]
    exact hperm
  · rw [hlen_test]
    omega
  · rw [htrain, List.length_drop, hlenS, hlen_test]
  · intro hnodup x hx hx'
    have hSnodup : (shuffle seed records).Nodup := hperm.nodup_iff.mpr hnodup
    rw [htest] at hx
    rw [htrain] at hx'
    exact List.disjoint_take_drop hSnodup (le_refl _) hx hx'

/-- Witness for C1 at a concrete record set, fraction and seed. -/
theorem c1_split_partition_witness :
    (([3, 1, 4, 1, 5, 9, 2] : List Nat) ≠ [] ∧ (0 : ℚ) < 3 / 10 ∧ (3 : ℚ) / 10 < 1)
    ∧ (((train_test_split ([3, 1, 4, 1, 5, 9, 2] : List Nat) (3 / 10) 42).test ++
          (train_test_split ([3, 1, 4, 1, 5, 9, 2] : List Nat) (3 / 10) 42).train).Perm
            [3, 1, 4, 1, 5, 9, 2]
        ∧ (((train_test_split ([3, 1, 4, 1, 5, 9, 2] : List Nat) (3 / 10) 42).test.length : Int)
            = round ((([3, 1, 4, 1, 5, 9, 2] : List Nat).length : ℚ) * (3 / 10)))
        ∧ (train_test_split ([3, 1, 4, 1, 5, 9, 2] : List Nat) (3 / 10) 42).train.length
            = ([3, 1, 4, 1, 5, 9, 2] : List Nat).length -
              (train_test_split ([3, 1, 4, 1, 5, 9, 2] : List Nat) (3 / 10) 42).test.length
        ∧ (([3, 1, 4, 1, 5, 9, 2] : List Nat).Nodup →
            ∀ x ∈ (train_test_split ([3, 1, 4, 1, 5, 9, 2] : List Nat) (3 / 10) 42).test,
              x ∉ (train_test_split ([3, 1, 4, 1, 5, 9, 2] : List Nat) (3 / 10) 42).train)) :=
  ⟨⟨by decide, by norm_num, by norm_num⟩,
    c1_split_partition [3, 1, 4, 1, 5, 9, 2] (3 / 10) 42 (by decide) (by norm_num) (by norm_num)⟩

/-- C5: the split is a pure function of the explicit arguments — two
invocations with the same records, fraction and seed produce identical
partitions (same membership and order); no hidden or global state is
consulted. -/
theorem c5_split_deterministic {α : Type _} (records records' : List α) (f f' : ℚ)
    (seed seed' : Nat) (h0 : 0 < f) (h1 : f < 1)
    (hr : records = records') (hf : f = f') (hs : seed = seed') :
    train_test_split records f seed = train_test_split records' f' seed' := by
  subst hr
  subst hf
  subst hs
  rfl

/-- Witness for C5 at a concrete record set, fraction and seed. -/
theorem c5_split_deterministic_witness :
    ((0 : ℚ) < 1 / 5 ∧ (1 : ℚ) / 5 < 1 ∧ ([10, 20, 30, 40, 50] : List Nat) = [10, 20, 30, 40, 50])
    ∧ train_test_split ([10, 20, 30, 40, 50] : List Nat) (1 / 5) 299 =
        train_test_split ([10, 20, 30, 40, 50] : List Nat) (1 / 5) 299 :=
  ⟨⟨by norm_num, by norm_num, rfl⟩,
    c5_split_deterministic [10, 20, 30, 40, 50] [10, 20, 30, 40, 50] (1 / 5) (1 / 5) 299 299
      (by norm_num) (by norm_num) rfl rfl rfl⟩

/-- What C2 asserts of `encode_target` on an observed value list (and a
permuted copy of it): codes are the dense range `0..k-1`, the keys are
exactly the distinct observed values in strictly ascending lexicographic
order, the map ignores row order, and a Failure/Success dataset yields
`Failure ↦ 0, Success ↦ 1`. -/
def EncodeTargetSpec (values values' : List String) : Prop :=
  encode_target values =
      Except.ok (values.map (encodeValue (labelMapOf values)), labelMapOf values)
  ∧ (labelMapOf values).map Prod.snd = List.range values.dedup.length
  ∧ ((labelMapOf values).map Prod.fst).Perm values.dedup
  ∧ List.Sorted (· < ·) ((labelMapOf values).map Prod.fst)
  ∧ labelMapOf values' = labelMapOf values
  ∧ (values.dedup.Perm ["Failure", "Success"] →
      labelMapOf values = [("Failure", 0), ("Success", 1)])

/-- C2: `encode_target` assigns each distinct observed target string a
dense integer code `0..k-1`, ordered lexicographically by the string,
independently of row order; on a Failure/Success dataset the map is
`{Failure: 0, Success: 1}`. -/
theorem c2_encode_target (values values' : List String) (hne : values ≠ [])
    (hperm : values.Perm values') : EncodeTargetSpec values values' := by
  have hclasses_perm : (labelClasses values).Perm values.dedup :=
    List.perm_insertionSort _ _
  have hlen : (labelClasses values).length = values.dedup.length :=
    hclasses_perm.length_eq
  have hsorted_le : List.Sorted (· ≤ ·) (labelClasses values) :=
    List.sorted_insertionSort _ _
  have hnodup : (labelClasses values).Nodup :=
    hclasses_perm.nodup_iff.mpr (List.nodup_dedup _)
  have hfst : (labelMapOf values).map Prod.fst = labelClasses values := by
    unfold labelMapOf
    exact List.map_fst_zip _ _ (by rw [List.length_range])
  have hsnd : (labelMapOf values).map Prod.snd
      = List.range (labelClasses values).length := by
    unfold labelMapOf
    exact List.map_snd_zip _ _ (by rw [List.length_range])
  refine ⟨?_, ?_, ?_, ?_, ?_, ?_⟩
  · unfold encode_target
    rw [if_neg hne]
  · rw [hsnd, hlen]
  · rw [hfst]; exact hclasses_perm
  · rw [hfst]; exact hsorted_le.lt_of_le hnodup
  · have hdedup : values'.dedup.Perm values.dedup := hperm.dedup.symm
    have hceq : labelClasses values' = labelClasses values := by
      refine List.eq_of_perm_of_sorted ?_ (List.sorted_insertionSort _ _) hsorted_le
      exact (List.perm_insertionSort _ _).trans (hdedup.trans hclasses_perm.symm)
    unfold labelMapOf
    rw [hceq]
  · intro hfs
    have hlt : ("Failure" : String) < "Success" :=
      String.lt_iff_toList_lt.mpr (by decide)
    have hFS_sorted : List.Sorted (· ≤ ·) ["Failure", "Success"] := by
      refine List.sorted_cons.mpr ⟨?_, List.sorted_singleton _⟩
      intro b hb
      simp only [List.mem_singleton] at hb
      subst hb
      exact hlt.le
    have hceq : labelClasses values = ["Failure", "Success"] :=
      List.eq_of_perm_of_sorted (hclasses_perm.trans hfs) hsorted_le hFS_sorted
    unfold labelMapOf
    rw [hceq]
    rfl

/-- Witness for C2 at a concrete Failure/Success value list and a
permutation of it. -/
theorem c2_encode_target_witness :
    ((["Success", "Failure", "Success"] : List String) ≠ []
      ∧ (["Success", "Failure", "Success"] : List String).Perm
          ["Failure", "Success", "Success"])
    ∧ EncodeTargetSpec ["Success", "Failure", "Success"]
        ["Failure", "Success", "Success"] :=
  ⟨⟨by decide, by decide⟩, c2_encode_target _ _ (by decide) (by decide)⟩

/-- What C3 asserts of `rename_fields`: it fails with `SchemaMismatch`
exactly when a rename key is absent from the header or the renamed header
would contain duplicates, and otherwise renames the fields in place,
leaving the row values and the field order unchanged. -/
def RenameSpec (f : RawFrame) (m : List (String × String)) : Prop :=
  (rename_fields f m = .error .SchemaMismatch ↔
    (∃ p ∈ m, p.1 ∉ f.header) ∨ ¬ (f.header.map (applyRename m)).Nodup)
  ∧ ((∀ p ∈ m, p.1 ∈ f.header) → (f.header.map (applyRename m)).Nodup →
      rename_fields f m = .ok ⟨f.header.map (applyRename m), f.rows⟩)

/-- C3: `rename_fields` fails with `SchemaMismatch` whenever a key of the
rename map is not among the current field names or applying the map would
produce duplicate field names; otherwise it renames the named fields with
all values and field order unchanged. -/
theorem c3_rename_fields (f : RawFrame) (m : List (String × String)) :
    RenameSpec f m := by
  constructor
  · constructor
    · intro h
      by_cases hc : (∀ p ∈ m, p.1 ∈ f.header) ∧ (f.header.map (applyRename m)).Nodup
      · unfold rename_fields at h
        rw [if_pos hc] at h
        exact absurd h (by simp)
      · rcases not_and_or.mp hc with hA | hB
        · left; push_neg at hA; exact hA
        · right; exact hB
    · intro h
      unfold rename_fields
      rw [if_neg ?_]
      intro hc
      rcases h with ⟨p, hp, hnp⟩ | hB
      · exact hnp (hc.1 p hp)
      · exact hB hc.2
  · intro hA hB
    unfold rename_fields
    rw [if_pos ⟨hA, hB⟩]

/-- A concrete frame for the C3 witness. -/
def rf0 : RawFrame :=
  ⟨["Document_FIToFICstmrCdtTrf_CdtTrfTxInf_Dbtr_PstlAdr_Ctry", "y_target"],
   [[Cell.str "MX", Cell.str "Success"]]⟩

/-- The concrete rename map for the C3 witness. -/
def rm0 : List (String × String) :=
  [("Document_FIToFICstmrCdtTrf_CdtTrfTxInf_Dbtr_PstlAdr_Ctry", "Dbtr_PstlAdr_Ctry")]

/-- Witness for C3 at a concrete frame and rename map, with the renamed
frame computed. -/
theorem c3_rename_fields_witness :
    RenameSpec rf0 rm0
    ∧ rename_fields rf0 rm0 =
        Except.ok ⟨["Dbtr_PstlAdr_Ctry", "y_target"], [[Cell.str "MX", Cell.str "Success"]]⟩ :=
  ⟨c3_rename_fields rf0 rm0, by rfl⟩

theorem coerceCell_error_eq (k : Kind) (c : Cell) (e : PrepError)
    (h : coerceCell k c = .error e) : e = .TypeCoercionError := by
  unfold coerceCell at h
  cases k with
  | categorical => exact absurd h (by simp [coerceStr])
  | integer =>
      unfold coerceStr at h
      cases hp : parseIntStr (astypeStr c) with
      | none => rw [hp] at h; exact (Except.error.inj h).symm
      | some n => rw [hp] at h; exact absurd h (by simp)
  | numeric =>
      unfold coerceStr at h
      cases hp : parseFloatStr (astypeStr c) with
      | none => rw [hp] at h; exact (Except.error.inj h).symm
      | some v => rw [hp] at h; exact absurd h (by simp)
  | text => exact absurd h (by simp [coerceStr])
  | target => exact absurd h (by simp [coerceStr])

/-- What C4 asserts of a record holding the raw value `"00.P0006"` in its
`RgltryRptg_Dtls_Cd` field: the declared kind of that field decides the
outcome of `assign_types` — `numeric` fails with `TypeCoercionError`, and
`categorical` or `text` succeeds with the value unchanged. -/
def DeclaredKindSpec (sch : String → Kind) (hs : List String)
    (cells : List Cell) (j : Nat) : Prop :=
  (sch "RgltryRptg_Dtls_Cd" = Kind.numeric →
    assign_types ⟨hs, [cells]⟩ sch = .error .TypeCoercionError)
  ∧ (sch "RgltryRptg_Dtls_Cd" = Kind.categorical →
      (∀ p ∈ hs.zip cells, ∃ v, coerceCell (sch p.1) p.2 = .ok v) →
      ∃ tvs, assign_types ⟨hs, [cells]⟩ sch = .ok ⟨hs, [tvs]⟩
        ∧ tvs.get? j = some (TValue.cat "00.P0006"))
  ∧ (sch "RgltryRptg_Dtls_Cd" = Kind.text →
      (∀ p ∈ hs.zip cells, ∃ v, coerceCell (sch p.1) p.2 = .ok v) →
      ∃ tvs, assign_types ⟨hs, [cells]⟩ sch = .ok ⟨hs, [tvs]⟩
        ∧ tvs.get? j = some (TValue.txt "00.P0006"))

/-- C4: for a record whose `RgltryRptg_Dtls_Cd` field holds `"00.P0006"`,
the schema declaration of that field — not the value's shape — determines
the outcome of `assign_types`: `numeric` fails with `TypeCoercionError`
(the value does not parse as a double), `categorical` and `text` succeed
with the value unchanged. -/
theorem c4_declared_kind_drives_coercion (sch : String → Kind) (hs : List String)
    (cells : List Cell) (j : Nat)
    (hname : hs.get? j = some "RgltryRptg_Dtls_Cd")
    (hcell : cells.get? j = some (Cell.str "00.P0006")) :
    DeclaredKindSpec sch hs cells j := by
  have hzip := zip_get? hs cells j _ _ hname hcell
  have hmem : ("RgltryRptg_Dtls_Cd", Cell.str "00.P0006") ∈ hs.zip cells :=
    List.get?_mem hzip
  have hframe : assign_types ⟨hs, [cells]⟩ sch =
      (([cells] : List (List Cell)).mapM (fun r => assignRow sch hs r) >>= fun rows =>
        pure (⟨hs, rows⟩ : TypedFrame)) := rfl
  refine ⟨?_, ?_, ?_⟩
  · intro hk
    have hbad : coerceCell (sch "RgltryRptg_Dtls_Cd") (Cell.str "00.P0006")
        = .error .TypeCoercionError := by rw [hk]; rfl
    have hrow : assignRow sch hs cells = .error .TypeCoercionError := by
      apply mapM_error_of_mem (fun x e hx => coerceCell_error_eq _ _ _ hx)
      exact ⟨_, hmem, hbad⟩
    rw [hframe, List.mapM_cons, hrow, except_bind_error, except_bind_error]
  · intro hk hall
    obtain ⟨tvs, htvs, hfa⟩ := mapM_ok_of_forall_exists (l := hs.zip cells) hall
    have hrow : assignRow sch hs cells = .ok tvs := htvs
    refine ⟨tvs, ?_, ?_⟩
    · rw [hframe, List.mapM_cons, hrow, except_bind_ok, List.mapM_nil]
      rfl
    · obtain ⟨v, hv, hcv⟩ := forall₂_get? hfa j _ hzip
      have hgood : coerceCell (sch "RgltryRptg_Dtls_Cd") (Cell.str "00.P0006")
          = .ok (TValue.cat "00.P0006") := by rw [hk]; rfl
      have hveq : TValue.cat "00.P0006" = v := Except.ok.inj (hgood.symm.trans hcv)
      rw [hv, ← hveq]
  · intro hk hall
    obtain ⟨tvs, htvs, hfa⟩ := mapM_ok_of_forall_exists (l := hs.zip cells) hall
    have hrow : assignRow sch hs cells = .ok tvs := htvs
    refine ⟨tvs, ?_, ?_⟩
    · rw [hframe, List.mapM_cons, hrow, except_bind_ok, List.mapM_nil]
      rfl
    · obtain ⟨v, hv, hcv⟩ := forall₂_get? hfa j _ hzip
      have hgood : coerceCell (sch "RgltryRptg_Dtls_Cd") (Cell.str "00.P0006")
          = .ok (TValue.txt "00.P0006") := by rw [hk]; rfl
      have hveq : TValue.txt "00.P0006" = v := Except.ok.inj (hgood.symm.trans hcv)
      rw [hv, ← hveq]

/-- Witness for C4 at a concrete one-field record. -/
theorem c4_declared_kind_witness :
    ((["RgltryRptg_Dtls_Cd"] : List String).get? 0 = some "RgltryRptg_Dtls_Cd"
      ∧ ([Cell.str "00.P0006"] : List Cell).get? 0 = some (Cell.str "00.P0006"))
    ∧ DeclaredKindSpec (fun _ => Kind.numeric) ["RgltryRptg_Dtls_Cd"]
        [Cell.str "00.P0006"] 0 :=
  ⟨⟨rfl, rfl⟩,
    c4_declared_kind_drives_coercion (fun _ => Kind.numeric) _ _ 0 rfl rfl⟩

theorem assign_types_ok_inv (f : RawFrame) (sch : String → Kind) (t : TypedFrame)
    (h : assign_types f sch = .ok t) :
    t.header = f.header
    ∧ f.rows.mapM (fun r => assignRow sch f.header r) = .ok t.rows := by
  unfold assign_types at h
  cases hm : f.rows.mapM (fun r => assignRow sch f.header r) with
  | error e =>
      rw [hm, except_bind_error] at h
      exact absurd h (by simp)
  | ok rows =>
      rw [hm, except_bind_ok] at h
      have ht : TypedFrame.mk f.header rows = t := by
        simp only [pure, Except.pure] at h
        exact Except.ok.inj h
      subst ht
      refine ⟨rfl, ?_⟩
      rfl

/-- C9: after `assign_types`, a categorical field whose raw value was
missing (an empty CSV field) holds the literal string `"nan"` —
`astype(str)` stringifies the missing value before categorisation — and
is written back to CSV as the string `"nan"`, not as an empty field. -/
theorem c9_missing_categorical_nan (f : RawFrame) (sch : String → Kind)
    (t : TypedFrame) (hok : assign_types f sch = .ok t) (i j : Nat) (name : String)
    (hname : f.header.get? j = some name) (hkind : sch name = .categorical)
    (hrow : ∃ r, f.rows.get? i = some r ∧ r.get? j = some Cell.missing) :
    (∃ tr, t.rows.get? i = some tr ∧ tr.get? j = some (TValue.cat "nan"))
    ∧ tvalueToCsvStr (TValue.cat "nan") = "nan"
    ∧ astypeStr Cell.missing = "nan" := by
  obtain ⟨r, hri, hcell⟩ := hrow
  obtain ⟨hhead, hmapM⟩ := assign_types_ok_inv f sch t hok
  have hfa := forall₂_of_mapM_ok hmapM
  obtain ⟨tr, htr, hassign⟩ := forall₂_get? hfa i r hri
  have hassign' : (f.header.zip r).mapM (fun p => coerceCell (sch p.1) p.2)
      = .ok tr := hassign
  have hfa2 := forall₂_of_mapM_ok hassign'
  have hzip := zip_get? f.header r j _ _ hname hcell
  obtain ⟨v, hv, hcv⟩ := forall₂_get? hfa2 j _ hzip
  have hgood : coerceCell (sch name) Cell.missing = .ok (TValue.cat "nan") := by
    rw [hkind]; rfl
  have hveq : TValue.cat "nan" = v := Except.ok.inj (hgood.symm.trans hcv)
  exact ⟨⟨tr, htr, by rw [hv, ← hveq]⟩, rfl, rfl⟩

/-- The one-column frame with a single missing cell for the C9 witness. -/
def mf0 : RawFrame := ⟨["RgltryRptg_Authrty_Ctry"], [[Cell.missing]]⟩

/-- Witness for C9 at a concrete frame with a missing categorical cell. -/
theorem c9_missing_categorical_witness :
    (assign_types mf0 (fun _ => Kind.categorical) =
        Except.ok ⟨["RgltryRptg_Authrty_Ctry"], [[TValue.cat "nan"]]⟩
      ∧ mf0.header.get? 0 = some "RgltryRptg_Authrty_Ctry"
      ∧ (∃ r, mf0.rows.get? 0 = some r ∧ r.get? 0 = some Cell.missing))
    ∧ ((∃ tr, (TypedFrame.mk ["RgltryRptg_Authrty_Ctry"] [[TValue.cat "nan"]]).rows.get? 0
          = some tr ∧ tr.get? 0 = some (TValue.cat "nan"))
        ∧ tvalueToCsvStr (TValue.cat "nan") = "nan"
        ∧ astypeStr Cell.missing = "nan") :=
  ⟨⟨rfl, rfl, ⟨[Cell.missing], rfl, rfl⟩⟩,
    c9_missing_categorical_nan mf0 (fun _ => Kind.categorical) _ rfl 0 0
      "RgltryRptg_Authrty_Ctry" rfl rfl ⟨[Cell.missing], rfl, rfl⟩⟩

theorem coerce_idem (k : Kind) (s : String) (v : TValue)
    (h : coerceStr k s = .ok v) : coerceStr k (tvalueToStr v) = .ok v := by
  cases k with
  | categorical =>
      have hv : TValue.cat s = v := Except.ok.inj h
      subst hv
      rfl
  | integer =>
      have heq : ∀ s', coerceStr Kind.integer s' =
          (match parseIntStr s' with
            | some n => Except.ok (TValue.intg n)
            | none => Except.error PrepError.TypeCoercionError) := fun _ => rfl
      rw [heq] at h
      cases hp : parseIntStr s with
      | none => rw [hp] at h; exact absurd h (by simp)
      | some n =>
          rw [hp] at h
          have hv : TValue.intg n = v := Except.ok.inj h
          subst hv
          rw [heq]
          have hts : tvalueToStr (TValue.intg n) = intToString n := rfl
          rw [hts, parseIntStr_intToString]
  | numeric =>
      have heq : ∀ s', coerceStr Kind.numeric s' =
          (match parseFloatStr s' with
            | some fv => Except.ok (TValue.num fv)
            | none => Except.error PrepError.TypeCoercionError) := fun _ => rfl
      rw [heq] at h
      cases hp : parseFloatStr s with
      | none => rw [hp] at h; exact absurd h (by simp)
      | some fv =>
          rw [hp] at h
          have hv : TValue.num fv = v := Except.ok.inj h
          subst hv
          rw [heq]
          have hcanon := parseFloatStr_canon s fv hp
          have hts : tvalueToStr (TValue.num fv) = floatValToString fv := rfl
          rw [hts, parseFloatStr_floatValToString fv hcanon]
  | text =>
      have hv : TValue.txt s = v := Except.ok.inj h
      subst hv
      rfl
  | target =>
      have hv : TValue.tgt s = v := Except.ok.inj h
      subst hv
      rfl

theorem assignRowTyped_of_assignRow (sch : String → Kind) :
    ∀ (hs : List String) (cells : List Cell) (tvs : List TValue),
      assignRow sch hs cells = .ok tvs → assignRowTyped sch hs tvs = .ok tvs := by
  intro hs
  induction hs with
  | nil =>
      intro cells tvs h
      have htvs : tvs = [] := by
        have h2 : Except.ok ([] : List TValue) = Except.ok tvs := h
        exact (Except.ok.inj h2).symm
      subst htvs
      rfl
  | cons hname hs ih =>
      intro cells tvs hok
      cases cells with
      | nil =>
          have htvs : tvs = [] := by
            have h2 : Except.ok ([] : List TValue) = Except.ok tvs := hok
            exact (Except.ok.inj h2).symm
          subst htvs
          rfl
      | cons c cs =>
          have hok' : ((hname, c) :: hs.zip cs).mapM
              (fun p => coerceCell (sch p.1) p.2) = .ok tvs := hok
          obtain ⟨v, vs, hv, hvs, rfl⟩ := mapM_cons_ok_inv hok'
          have hidem : coerceStr (sch hname) (tvalueToStr v) = .ok v :=
            coerce_idem (sch hname) (astypeStr c) v hv
          have hrec : (hs.zip vs).mapM
              (fun p => coerceStr (sch p.1) (tvalueToStr p.2)) = .ok vs := ih cs vs hvs
          show ((hname, v) :: hs.zip vs).mapM
              (fun p => coerceStr (sch p.1) (tvalueToStr p.2)) = .ok (v :: vs)
          rw [List.mapM_cons]
          have hstep : coerceStr (sch (hname, v).1) (tvalueToStr (hname, v).2)
              = Except.ok v := hidem
          rw [hstep, except_bind_ok, hrec, except_bind_ok]
          rfl

theorem forall₂_mem_right {α β : Type _} {R : α → β → Prop} :
    ∀ {l : List α} {ys : List β}, List.Forall₂ R l ys →
      ∀ y ∈ ys, ∃ x ∈ l, R x y := by
  intro l ys h
  induction h with
  | nil => intro y hy; simp at hy
  | @cons x y2 xs ys2 hr _ ih =>
      intro y hy
      cases List.mem_cons.mp hy with
      | inl he => subst he; exact ⟨x, List.mem_cons_self x xs, hr⟩
      | inr hm =>
          obtain ⟨x', hx', hr'⟩ := ih y hm
          exact ⟨x', List.mem_cons_of_mem x hx', hr'⟩

/-- C7: `assign_types` is idempotent — when it succeeds on a raw frame,
re-applying the same schema to its own (typed) output yields output
identical to the first application. -/
theorem c7_assign_types_idempotent (f : RawFrame) (sch : String → Kind)
    (t : TypedFrame) (hok : assign_types f sch = .ok t) :
    assign_types_typed t sch = .ok t := by
  obtain ⟨hhead, hmapM⟩ := assign_types_ok_inv f sch t hok
  have hfa := forall₂_of_mapM_ok hmapM
  have hrows : ∀ row ∈ t.rows, assignRowTyped sch t.header row = .ok row := by
    intro row hr
    obtain ⟨cells, _, hcr⟩ := forall₂_mem_right hfa row hr
    rw [hhead]
    exact assignRowTyped_of_assignRow sch f.header cells row hcr
  have hmm : t.rows.mapM (fun r => assignRowTyped sch t.header r)
      = .ok (t.rows.map id) :=
    mapM_ok_of_forall fun x hx => by rw [id_eq]; exact hrows x hx
  unfold assign_types_typed
  rw [hmm, except_bind_ok, List.map_id]
  cases t
  rfl

/-- A concrete raw frame exercising every kind for the C7 witness. -/
def if0 : RawFrame :=
  ⟨["a", "b", "c", "d", "e"],
   [[Cell.str "MX", Cell.str "-42", Cell.str "3.5", Cell.missing, Cell.str "Success"]]⟩

/-- The declared kinds of `if0`'s columns. -/
def isch0 : String → Kind := fun n =>
  if n = "a" then Kind.categorical
  else if n = "b" then Kind.integer
  else if n = "c" then Kind.numeric
  else if n = "d" then Kind.text
  else Kind.target

/-- The typed frame `assign_types` produces from `if0`. -/
def it0 : TypedFrame :=
  ⟨["a", "b", "c", "d", "e"],
   [[TValue.cat "MX", TValue.intg (-42), TValue.num (FloatVal.fin 35 1),
     TValue.txt "nan", TValue.tgt "Success"]]⟩

/-- Witness for C7 at a concrete frame covering all five kinds. -/
theorem c7_assign_types_idempotent_witness :
    assign_types if0 isch0 = Except.ok it0
    ∧ assign_types_typed it0 isch0 = Except.ok it0 :=
  ⟨by rfl, c7_assign_types_idempotent if0 isch0 it0 (by rfl)⟩

/-- The kinds whose typed values C6 asserts round-trip exactly. -/
def isKeyKind : Kind → Bool
  | .categorical => true
  | .integer => true
  | .numeric => true
  | _ => false

/-- Well-typedness of one typed value under its column's declared kind
(with a canonical fraction for finite floats, and — the amendment C6's
counterexample forces — a nonempty string for categorical values, which
is all `assign_types` ever produces from read data). -/
def cellOk : Kind → TValue → Bool
  | .categorical, .cat s => !(s == "")
  | .integer, .intg _ => true
  | .numeric, .num .nan => true
  | .numeric, .num (.fin m e) => (e == 0) || !(m % 10 == 0)
  | .text, .txt _ => true
  | .target, .tgt _ => true
  | _, _ => false

/-- Well-typedness of a whole typed frame under the Field Schema. -/
def frameOk (sch : String → Kind) (t : TypedFrame) : Bool :=
  !t.header.isEmpty &&
    t.rows.all (fun r => (r.length == t.header.length) &&
      (t.header.zip r).all (fun p => cellOk (sch p.1) p.2))

/-- The values of a row at its categorical, integer and numeric columns,
in column order: the projection C6 claims the round trip preserves. -/
def projKey (sch : String → Kind) (hs : List String) (r : List TValue) :
    List TValue :=
  (hs.zip r).filterMap (fun p => if isKeyKind (sch p.1) then some p.2 else none)

theorem projKey_cons (sch : String → Kind) (hname : String) (hs : List String)
    (v : TValue) (r : List TValue) :
    projKey sch (hname :: hs) (v :: r) =
      if isKeyKind (sch hname) then v :: projKey sch hs r else projKey sch hs r := by
  unfold projKey
  rw [List.zip_cons_cons, List.filterMap_cons]
  by_cases hk : isKeyKind (sch hname) = true
  · simp [hk]
  · simp [hk]

theorem intToString_ne_empty (n : Int) : intToString n ≠ "" := by
  intro h
  have hd : intToChars n = [] := congrArg String.data h
  unfold intToChars at hd
  by_cases hn : n < 0
  · rw [if_pos hn] at hd
    simp at hd
  · rw [if_neg hn, List.nil_append] at hd
    exact natToChars_ne_nil n.natAbs hd

theorem floatFinToString_ne_empty (m : Int) (e : Nat) :
    String.mk (floatToChars m e) ≠ "" := by
  intro h
  have hd : floatToChars m e = [] := congrArg String.data h
  have := dot_mem_floatToChars m e
  rw [hd] at this
  simp at this

theorem cell_round_trip (k : Kind) (v : TValue) (h : cellOk k v = true) :
    ∃ v2, coerceCell k (toCell (tvalueToCsvStr v)) = .ok v2 ∧
      (isKeyKind k = true → v2 = v) := by
  cases k with
  | categorical =>
      cases v with
      | cat s =>
          have hs : ¬ (s = "") := by
            intro he
            subst he
            simp [cellOk] at h
          refine ⟨.cat s, ?_, fun _ => rfl⟩
          have ht : tvalueToCsvStr (TValue.cat s) = s := rfl
          rw [ht]
          unfold toCell
          rw [if_neg hs]
          rfl
      | intg n => simp [cellOk] at h
      | num fv => simp [cellOk] at h
      | txt s => simp [cellOk] at h
      | tgt s => simp [cellOk] at h
  | integer =>
      cases v with
      | cat s => simp [cellOk] at h
      | intg n =>
          refine ⟨.intg n, ?_, fun _ => rfl⟩
          have ht : tvalueToCsvStr (TValue.intg n) = intToString n := rfl
          rw [ht]
          unfold toCell
          rw [if_neg (intToString_ne_empty n)]
          have hc : coerceCell Kind.integer (Cell.str (intToString n)) =
              (match parseIntStr (intToString n) with
                | some n' => Except.ok (TValue.intg n')
                | none => Except.error PrepError.TypeCoercionError) := rfl
          rw [hc, parseIntStr_intToString]
      | num fv => simp [cellOk] at h
      | txt s => simp [cellOk] at h
      | tgt s => simp [cellOk] at h
  | numeric =>
      cases v with
      | cat s => simp [cellOk] at h
      | intg n => simp [cellOk] at h
      | num fv =>
          cases fv with
          | nan =>
              refine ⟨.num .nan, ?_, fun _ => rfl⟩
              rfl
          | fin m e =>
              have hcanon : FloatCanon (FloatVal.fin m e) := by
                simp only [cellOk, Bool.or_eq_true, beq_iff_eq] at h
                rcases h with h0 | hm
                · left; exact h0
                · right
                  rw [Int.dvd_iff_emod_eq_zero]
                  simpa using hm
              refine ⟨.num (.fin m e), ?_, fun _ => rfl⟩
              have ht : tvalueToCsvStr (TValue.num (FloatVal.fin m e)) =
                  String.mk (floatToChars m e) := rfl
              rw [ht]
              unfold toCell
              rw [if_neg (floatFinToString_ne_empty m e)]
              have hc : coerceCell Kind.numeric (Cell.str (String.mk (floatToChars m e))) =
                  (match parseFloatStr (String.mk (floatToChars m e)) with
                    | some fv' => Except.ok (TValue.num fv')
                    | none => Except.error PrepError.TypeCoercionError) := rfl
              rw [hc]
              have hps : parseFloatStr (String.mk (floatToChars m e)) =
                  some (FloatVal.fin m e) :=
                parseFloatStr_floatValToString (FloatVal.fin m e) hcanon
              rw [hps]
      | txt s => simp [cellOk] at h
      | tgt s => simp [cellOk] at h
  | text =>
      cases v with
      | txt s =>
          exact ⟨.txt (astypeStr (toCell s)), rfl, fun hc => absurd hc (by decide)⟩
      | cat s => simp [cellOk] at h
      | intg n => simp [cellOk] at h
      | num fv => simp [cellOk] at h
      | tgt s => simp [cellOk] at h
  | target =>
      cases v with
      | tgt s =>
          exact ⟨.tgt (astypeStr (toCell s)), rfl, fun hc => absurd hc (by decide)⟩
      | cat s => simp [cellOk] at h
      | intg n => simp [cellOk] at h
      | num fv => simp [cellOk] at h
      | txt s => simp [cellOk] at h

theorem read_write (t : TypedFrame) (hne : t.header ≠ [])
    (hrows : ∀ r ∈ t.rows, r ≠ []) :
    read_csv (write_csv t true) =
      some ⟨t.header, (t.rows.map (fun r => r.map tvalueToCsvStr)).map
        (fun r => r.map toCell)⟩ := by
  have hw : write_csv t true =
      String.mk (renderFile ([t.header] ++
        t.rows.map (fun r => r.map tvalueToCsvStr))) := rfl
  rw [hw]
  unfold read_csv
  have hall : ∀ row ∈ ([t.header] ++ t.rows.map (fun r => r.map tvalueToCsvStr)),
      row ≠ [] := by
    intro row hrow
    rcases List.mem_append.mp hrow with h1 | h2
    · simp only [List.mem_singleton] at h1
      subst h1
      exact hne
    · obtain ⟨r, hr, rfl⟩ := List.mem_map.mp h2
      intro hc
      exact hrows r hr (List.map_eq_nil_iff.mp hc)
  rw [parseCsv_renderFile _ hall]
  rfl

theorem row_round_trip (sch : String → Kind) :
    ∀ (hs : List String) (r : List TValue),
      (∀ p ∈ hs.zip r, cellOk (sch p.1) p.2 = true) →
      ∃ tvs2, assignRow sch hs (r.map (fun v => toCell (tvalueToCsvStr v))) = .ok tvs2
        ∧ projKey sch hs tvs2 = projKey sch hs r := by
  intro hs
  induction hs with
  | nil => intro r _; exact ⟨[], rfl, rfl⟩
  | cons hname hs ih =>
      intro r hall
      cases r with
      | nil => exact ⟨[], rfl, rfl⟩
      | cons v vs =>
          have hcell : cellOk (sch hname) v = true :=
            hall (hname, v) (by rw [List.zip_cons_cons]; exact List.mem_cons_self _ _)
          obtain ⟨v2, hv2, hkey⟩ := cell_round_trip (sch hname) v hcell
          obtain ⟨tvs2, htvs2, hproj⟩ := ih vs (fun p hp =>
            hall p (by rw [List.zip_cons_cons]; exact List.mem_cons_of_mem _ hp))
          refine ⟨v2 :: tvs2, ?_, ?_⟩
          · have hstep : assignRow sch (hname :: hs)
                ((v :: vs).map (fun v => toCell (tvalueToCsvStr v))) =
                ((hname, toCell (tvalueToCsvStr v)) ::
                  hs.zip (vs.map (fun v => toCell (tvalueToCsvStr v)))).mapM
                  (fun p => coerceCell (sch p.1) p.2) := rfl
            rw [hstep, List.mapM_cons]
            have h1 : coerceCell (sch (hname, toCell (tvalueToCsvStr v)).1)
                (hname, toCell (tvalueToCsvStr v)).2 = Except.ok v2 := hv2
            rw [h1, except_bind_ok]
            have h2 : (hs.zip (vs.map (fun v => toCell (tvalueToCsvStr v)))).mapM
                (fun p => coerceCell (sch p.1) p.2) = Except.ok tvs2 := htvs2
            rw [h2, except_bind_ok]
            rfl
          · rw [projKey_cons, projKey_cons]
            by_cases hk : isKeyKind (sch hname) = true
            · rw [if_pos hk, if_pos hk, hproj, hkey hk]
            · rw [if_neg hk, if_neg hk, hproj]

theorem rows_round_trip (sch : String → Kind) (hs : List String) :
    ∀ (rows : List (List TValue)),
      (∀ r ∈ rows, ∀ p ∈ hs.zip r, cellOk (sch p.1) p.2 = true) →
      ∃ rows2,
        ((rows.map (fun r => r.map tvalueToCsvStr)).map (fun r => r.map toCell)).mapM
            (fun r => assignRow sch hs r) = .ok rows2
        ∧ rows2.map (projKey sch hs) = rows.map (projKey sch hs) := by
  intro rows
  induction rows with
  | nil => intro _; exact ⟨[], rfl, rfl⟩
  | cons r rs ih =>
      intro hall
      obtain ⟨tvs2, htvs2, hproj⟩ :=
        row_round_trip sch hs r (hall r (List.mem_cons_self r rs))
      obtain ⟨rows2, hrows2, hprojs⟩ :=
        ih fun r' hr' => hall r' (List.mem_cons_of_mem _ hr')
      refine ⟨tvs2 :: rows2, ?_, ?_⟩
      · simp only [List.map_cons]
        rw [List.mapM_cons]
        have hstep : assignRow sch hs ((r.map tvalueToCsvStr).map toCell)
            = .ok tvs2 := by
          rw [List.map_map]
          exact htvs2
        rw [hstep, except_bind_ok, hrows2, except_bind_ok]
        rfl
      · simp only [List.map_cons, hproj, hprojs]

/-- C6 (amended): writing a well-typed frame with `write_csv` and
re-reading it with the same Field Schema and `assign_types` succeeds and
reproduces the original typed values exactly at every categorical,
integer and numeric column — provided no categorical value is the empty
string (which `assign_types` never produces from read data: missing raw
fields are stringified to `"nan"`). -/
theorem c6_round_trip (sch : String → Kind) (t : TypedFrame)
    (hok : frameOk sch t = true) :
    ∃ t2, csv_round_trip sch t = .ok t2 ∧ t2.header = t.header
      ∧ t2.rows.map (projKey sch t.header) = t.rows.map (projKey sch t.header) := by
  have hok' := hok
  unfold frameOk at hok'
  rw [Bool.and_eq_true] at hok'
  obtain ⟨hh, hr⟩ := hok'
  have hhne : t.header ≠ [] := by
    intro hc
    rw [hc] at hh
    simp at hh
  rw [List.all_eq_true] at hr
  have hlen : ∀ r ∈ t.rows, r.length = t.header.length := by
    intro r hrm
    have h12 := hr r hrm
    rw [Bool.and_eq_true] at h12
    simpa using h12.1
  have hcells : ∀ r ∈ t.rows, ∀ p ∈ t.header.zip r, cellOk (sch p.1) p.2 = true := by
    intro r hrm
    have h12 := hr r hrm
    rw [Bool.and_eq_true] at h12
    have h2 := h12.2
    rw [List.all_eq_true] at h2
    exact h2
  have hrne : ∀ r ∈ t.rows, r ≠ [] := by
    intro r hrm hc
    have hl := hlen r hrm
    rw [hc] at hl
    exact hhne (List.length_eq_zero.mp hl.symm)
  have hread := read_write t hhne hrne
  obtain ⟨rows2, hrows2, hprojs⟩ := rows_round_trip sch t.header t.rows hcells
  refine ⟨⟨t.header, rows2⟩, ?_, rfl, ?_⟩
  · unfold csv_round_trip
    rw [hread]
    show assign_types
        ⟨t.header, (t.rows.map (fun r => r.map tvalueToCsvStr)).map
          (fun r => r.map toCell)⟩ sch = .ok ⟨t.header, rows2⟩
    have heq : assign_types
        ⟨t.header, (t.rows.map (fun r => r.map tvalueToCsvStr)).map
          (fun r => r.map toCell)⟩ sch =
        (((t.rows.map (fun r => r.map tvalueToCsvStr)).map
            (fun r => r.map toCell)).mapM (fun r => assignRow sch t.header r) >>=
          fun rows => pure (⟨t.header, rows⟩ : TypedFrame)) := rfl
    rw [heq, hrows2, except_bind_ok]
    rfl
  · exact hprojs

/-- The constant categorical schema for the C6 counterexample and
witness. -/
def schCat : String → Kind := fun _ => Kind.categorical

/-- A typed record set holding an empty categorical value. -/
def tEmptyCat : TypedFrame := ⟨["A"], [[TValue.cat ""]]⟩

/-- Counterexample to C6 as stated: the typed record set holding the
empty categorical value `""` does not round-trip — it is written as an
empty field, read back as missing, and stringified to `"nan"`, so the
claim that empty categorical fields round-trip (as empty fields, with
values reproduced exactly) fails at this input. -/
theorem c6_round_trip_counterexample :
    csv_round_trip schCat tEmptyCat =
      Except.ok ⟨["A"], [[TValue.cat "nan"]]⟩
    ∧ (⟨["A"], [[TValue.cat "nan"]]⟩ : TypedFrame) ≠ tEmptyCat := by
  constructor
  · rfl
  · decide

/-- A well-typed frame exercising quoting, negatives, floats and `nan`
for the C6 witness. -/
def wt0 : TypedFrame :=
  ⟨["a", "b", "c", "d"],
   [[TValue.cat "x,y", TValue.intg (-7), TValue.num (FloatVal.fin 35 1),
     TValue.num FloatVal.nan]]⟩

/-- The declared kinds of `wt0`'s columns. -/
def wsch0 : String → Kind := fun n =>
  if n = "a" then Kind.categorical
  else if n = "b" then Kind.integer
  else Kind.numeric

/-- Witness for C6 (amended) at a concrete well-typed frame. -/
theorem c6_round_trip_witness :
    frameOk wsch0 wt0 = true
    ∧ ∃ t2, csv_round_trip wsch0 wt0 = .ok t2 ∧ t2.header = wt0.header
        ∧ t2.rows.map (projKey wsch0 wt0.header) =
          wt0.rows.map (projKey wsch0 wt0.header) :=
  ⟨by decide, c6_round_trip wsch0 wt0 (by decide)⟩

end DataPrep
